import Mathlib

/-!
Verification development for the Datalog rule inliner
(`dl_mk_rule_inliner.cpp`): a shallow embedding of the data model and of
the three inlining stages (bulk, eager, linear), with theorems checking
the specification's statements against the embedded code.

Modelling conventions:
* A rule is a head atom, a list of positive uninterpreted tail atoms, a
  list of negated uninterpreted tail atoms, and an interpreted tail.
  This matches the source's layout where `get_positive_tail_size()` is
  the length of the positive prefix, `get_uninterpreted_tail_size()`
  additionally covers the negated atoms, and the interpreted constraints
  form the suffix.
* Term arguments are opaque identifiers (`List Nat`); the external
  substitution/unification primitive is a parameter of the context.  A
  substitution acts on argument lists and on interpreted-constraint
  identifiers only: applying a substitution never changes a predicate
  symbol and never changes whether a constraint is quantified, which is
  exactly the behaviour of the real substitution primitive.
* The external interpreted-tail simplifier, the `fix_unbound_vars`
  closure, the stratifier and the atom-unification test of the indices
  are abstract functions carried in the context; theorems that need one
  of their contracts state it as an explicit hypothesis.
* `norm_vars` (variable renaming to a dense prefix) is invisible at this
  abstraction level because arguments are opaque, so it is modelled as
  the identity; the abstract `unify` parameter stands for "normalize the
  target, then unify".
-/

set_option maxRecDepth 4000

namespace RuleInliner

/-- A predicate symbol: the source identifies a `func_decl` by its AST
id and queries its arity (`get_id`, `get_arity`). -/
structure Pred where
  id : Nat
  arity : Nat
deriving DecidableEq, Repr

/-- An uninterpreted predicate atom: a predicate applied to opaque
argument terms. -/
structure Atom where
  pred : Pred
  args : List Nat
deriving DecidableEq, Repr

/-- An interpreted tail element: an opaque constraint identifier
together with the `has_quantifiers()` flag the source queries on it. -/
structure Constr where
  cid : Nat
  hasQuant : Bool
deriving DecidableEq, Repr

/-- A rule `head :- ptail (positive atoms), ntail (negated atoms),
itail (interpreted constraints)`. -/
structure Rule where
  head : Atom
  ptail : List Atom
  ntail : List Atom
  itail : List Constr
deriving DecidableEq, Repr

instance : Inhabited Rule := ⟨⟨⟨⟨0, 0⟩, []⟩, [], [], []⟩⟩

/-- A substitution produced by the external most-general-unifier: it
acts on argument lists (per offset: `true` = target/offset 0, `false` =
source/offset 1) and on interpreted-constraint identifiers.  Predicate
symbols and quantifier flags are untouched by substitution
application, as in the real AST substitution. -/
structure Subst where
  onArgs : Bool → List Nat → List Nat
  onCid : Bool → Nat → Nat

/-- The pass context: declared output predicates, predicates with ground
facts, the configuration flags, and the external collaborators
(unifier, interpreted simplifier, unbound-variable closure, index atom
unification, stratifier). -/
structure Ctx where
  outputPreds : List Pred
  predsWithFacts : List Pred
  unify : Rule → Nat → Rule → Option Subst
  simplifier : Rule → Option Rule
  fixUnboundVars : Bool
  fixUV : Rule → Rule
  unifAtom : Atom → Atom → Bool
  inlineLinearBranch : Bool
  inlineLinearFlag : Bool
  sccOf : List Rule → List (List Pred)
  stratOf : List Rule → Pred → Nat

/-- Apply a substitution to an atom (`rule_unifier::apply(app*, ...)`)
at the given offset: the predicate symbol is preserved. -/
def substAtom (s : Subst) (isTgt : Bool) (a : Atom) : Atom :=
  ⟨a.pred, s.onArgs isTgt a.args⟩

/-- Apply a substitution to an interpreted constraint: the quantifier
flag is preserved. -/
def substConstr (s : Subst) (isTgt : Bool) (c : Constr) : Constr :=
  ⟨s.onCid isTgt c.cid, c.hasQuant⟩

/-- Modelled from the spec: `mk_rule_inliner::remove_duplicate_tails`
is declared but not defined under `src/`; per §4.1 it de-duplicates
tail elements by structural equality (plus polarity, which here is
encoded by keeping the positive, negated and interpreted lists
separate), preserving the first occurrence and removing later
duplicates. -/
def dedupFirst {α : Type} [DecidableEq α] : List α → List α
  | [] => []
  | a :: as => a :: (dedupFirst as).filter (fun b => decide (b ≠ a))

/-- Membership in the result of `dedupFirst` implies membership in the
input list. -/
theorem mem_of_mem_dedupFirst {α : Type} [DecidableEq α] :
    ∀ (l : List α) (x : α), x ∈ dedupFirst l → x ∈ l
  | [], _, h => by simp [dedupFirst] at h
  | a :: as, x, h => by
    rw [dedupFirst] at h
    rcases List.mem_cons.mp h with h | h
    · exact h ▸ List.mem_cons_self _ _
    · exact List.mem_cons_of_mem _
        (mem_of_mem_dedupFirst as x (List.mem_of_mem_filter h))

/-- `rule_unifier::apply(rule&, unsigned, rule&, rule_ref&)`: build the
resolvent from the ready substitution: substituted target head, target
tail minus the resolved position concatenated with the substituted
source tail (polarities preserved), duplicate removal, optional
existential closure of unbound variables, then the interpreted
simplifier; `none` means the simplifier found the interpreted tail
unsatisfiable. -/
def unifierApply (cx : Ctx) (s : Subst) (tgt : Rule) (tailIndex : Nat)
    (src : Rule) : Option Rule :=
  let newHead := substAtom s true tgt.head
  let newP := dedupFirst ((tgt.ptail.eraseIdx tailIndex).map (substAtom s true) ++
      src.ptail.map (substAtom s false))
  let newN := dedupFirst (tgt.ntail.map (substAtom s true) ++
      src.ntail.map (substAtom s false))
  let newI := dedupFirst (tgt.itail.map (substConstr s true) ++
      src.itail.map (substConstr s false))
  let r1 : Rule := ⟨newHead, newP, newN, newI⟩
  let r2 := if cx.fixUnboundVars then cx.fixUV r1 else r1
  cx.simplifier r2

/-- `mk_rule_inliner::has_quantifier`: whether some interpreted tail
element of the rule contains a quantifier. -/
def hasQuantifier (r : Rule) : Bool :=
  r.itail.any (fun c => c.hasQuant)

/-- `mk_rule_inliner::try_to_inline_rule`: reject a quantified source,
then unify the target's tail atom at `tailIndex` with the source head
and apply the substitution; `none` covers unification failure and an
unsatisfiable resolved interpreted tail. -/
def tryToInline (cx : Ctx) (tgt : Rule) (tailIndex : Nat) (src : Rule) :
    Option Rule :=
  if hasQuantifier src then none
  else
    match cx.unify tgt tailIndex src with
    | none => none
    | some s => unifierApply cx s tgt tailIndex src

/-- Planner state: the per-predicate counters from
`count_pred_occurrences` plus the forbidden set.  `headCt` is mutable
state because `forbid_multiple_multipliers` updates it in place. -/
structure PlanState where
  headCt : Pred → Nat
  tailCt : Pred → Nat
  hasNeg : Pred → Bool
  forbidden : List Pred

/-- `m_head_pred_ctr` after `count_pred_occurrences`: number of rules
with the given head predicate. -/
def countHead (rules : List Rule) (p : Pred) : Nat :=
  (rules.filter (fun r => decide (r.head.pred = p))).length

/-- `m_tail_pred_ctr` after `count_pred_occurrences`: number of
uninterpreted tail occurrences (the source counts the negated ones as
well: the loop runs over the whole uninterpreted tail). -/
def countTail (rules : List Rule) (p : Pred) : Nat :=
  (rules.map (fun r =>
    ((r.ptail ++ r.ntail).filter (fun a => decide (a.pred = p))).length)).sum

/-- `m_preds_with_neg_occurrence` after `count_pred_occurrences`:
whether the predicate occurs negated in some rule. -/
def negOcc (rules : List Rule) (p : Pred) : Bool :=
  rules.any (fun r => r.ntail.any (fun a => decide (a.pred = p)))

/-- The planner state as populated by `count_pred_occurrences` over the
input rule set, with a given forbidden set. -/
def countState (rules : List Rule) (forbidden : List Pred) : PlanState :=
  ⟨countHead rules, countTail rules, negOcc rules, forbidden⟩

/-- `mk_rule_inliner::inlining_allowed`: the four hard conditions
(output predicate, facts, negative occurrence, forbidden) followed by
the two soft blowup-control conditions. -/
def inliningAllowed (cx : Ctx) (st : PlanState) (p : Pred) : Bool :=
  if p ∈ cx.outputPreds ∨ p ∈ cx.predsWithFacts ∨ st.hasNeg p = true ∨
      p ∈ st.forbidden then
    false
  else
    decide (st.headCt p ≤ 1) ||
      (decide (st.tailCt p ≤ 1) && decide (st.headCt p ≤ 4))

/-- C4: `inlining_allowed(p)` returns true if and only if all four hard
conditions hold (`p` not an output predicate, not backed by facts, no
negative occurrence, not forbidden) and at least one soft condition
holds (`head_count[p] ≤ 1`, or `tail_count[p] ≤ 1 ∧ head_count[p] ≤ 4`). -/
theorem C4_inlining_allowed_iff (cx : Ctx) (st : PlanState) (p : Pred) :
    inliningAllowed cx st p = true ↔
      ((p ∉ cx.outputPreds ∧ p ∉ cx.predsWithFacts ∧ st.hasNeg p = false ∧
        p ∉ st.forbidden) ∧
       (st.headCt p ≤ 1 ∨ (st.tailCt p ≤ 1 ∧ st.headCt p ≤ 4))) := by
  unfold inliningAllowed
  split
  · rename_i h
    constructor
    · intro hf
      exact absurd hf (by simp)
    · intro ⟨⟨h1, h2, h3, h4⟩, _⟩
      exfalso
      rcases h with h | h | h | h
      · exact h1 h
      · exact h2 h
      · rw [h3] at h; exact Bool.false_ne_true h
      · exact h4 h
  · rename_i h
    push_neg at h
    obtain ⟨h1, h2, h3, h4⟩ := h
    constructor
    · intro hsoft
      refine ⟨⟨h1, h2, Bool.eq_false_iff.mpr h3, h4⟩, ?_⟩
      simpa using hsoft
    · intro ⟨_, hsoft⟩
      simpa using hsoft

/-- The scan `for (; i < pt_len && !inlining_allowed(r->get_decl(i)); ++i)`
of `transform_rule`: the first positive tail position whose predicate is
admissible for inlining, together with its atom. -/
def firstInl (cx : Ctx) (st : PlanState) : List Atom → Option (Nat × Atom)
  | [] => none
  | a :: rest =>
    if inliningAllowed cx st a.pred then some (0, a)
    else (firstInl cx st rest).map (fun ib => (ib.1 + 1, ib.2))

/-- The worklist loop of `mk_rule_inliner::transform_rule`, with fuel
(`none` = fuel exhausted).  The accumulator carries the output rule set
being appended to, the `modified` flag, and — as observable
instrumentation — the list of predicates whose defining rules were used
as resolution sources.  The worklist is a stack whose head is the top
(the source pushes and pops at the back of a vector); a popped rule with
a quantified interpreted tail is discarded, a rule with no admissible
positive tail atom is appended to the output, and otherwise every
defining rule of the first admissible tail predicate is resolved in and
the results are pushed. -/
def transformRuleLoop (cx : Ctx) (st : PlanState) (inl : Pred → List Rule) :
    Nat → List Rule → List Rule × Bool × List Pred →
      Option (List Rule × Bool × List Pred)
  | _, [], out => some out
  | 0, _ :: _, _ => none
  | fuel + 1, r :: todo, (acc, modified, srcs) =>
    let fi := firstInl cx st r.ptail
    if hasQuantifier r then
      transformRuleLoop cx st inl fuel todo (acc, modified, srcs)
    else
      match fi with
      | none => transformRuleLoop cx st inl fuel todo (acc ++ [r], modified, srcs)
      | some (i, a) =>
        let results := (inl a.pred).filterMap (fun src => tryToInline cx r i src)
        transformRuleLoop cx st inl fuel (results.reverse ++ todo)
          (acc, true, srcs ++ [a.pred])

/-- `mk_rule_inliner::transform_rule` on a single rule with an initially
empty output. -/
def transformRule (cx : Ctx) (st : PlanState) (inl : Pred → List Rule)
    (fuel : Nat) (r0 : Rule) : Option (List Rule × Bool × List Pred) :=
  transformRuleLoop cx st inl fuel [r0] ([], false, [])

/-- `mk_rule_inliner::transform_rules`: rules with an admissible head
predicate are dropped (they are being eliminated); the rest are passed
through `transform_rule` into the shared output set, or-ing the
per-rule `modified` flags. -/
def transformRulesLoop (cx : Ctx) (st : PlanState) (inl : Pred → List Rule)
    (fuel : Nat) :
    List Rule → List Rule × Bool × List Pred →
      Option (List Rule × Bool × List Pred)
  | [], out => some out
  | r :: rest, (acc, sd, srcs) =>
    if inliningAllowed cx st r.head.pred then
      transformRulesLoop cx st inl fuel rest (acc, sd, srcs)
    else
      match transformRuleLoop cx st inl fuel [r] (acc, false, srcs) with
      | none => none
      | some (acc2, m, srcs2) =>
        transformRulesLoop cx st inl fuel rest (acc2, sd || m, srcs2)

/-- `mk_rule_inliner::is_oriented_rewriter`: the rule may be used as a
rewriter without risking an infinite eager-inlining loop when every
positive tail predicate is lexicographically below the head predicate
(stratum, then arity, then AST id). -/
def isOrientedRewriter (strat : Pred → Nat) (r : Rule) : Bool :=
  r.ptail.all (fun a =>
    if strat a.pred = strat r.head.pred then
      !(decide (a.pred.arity > r.head.pred.arity) ||
        (decide (a.pred.arity = r.head.pred.arity) &&
         decide (a.pred.id ≥ r.head.pred.id)))
    else true)

/-- Result of the eager-inlining candidate selection for one tail atom. -/
inductive CandSel where
  | nocand
  | unique (c : Rule)
  | multi
deriving DecidableEq, Repr

/-- The candidate scan of `do_eager_inlining` when the predicate has two
or more rules: skip rules that do not unify with the tail atom; if a
second unifying rule is found the tail atom is abandoned (`multi`,
the `goto process_next_tail` of the source). -/
def scanCands (cx : Ctx) (r : Rule) (ti : Nat) :
    List Rule → Option Rule → CandSel
  | [], none => .nocand
  | [], some c => .unique c
  | pr :: rest, acc =>
    if (cx.unify r ti pr).isSome then
      match acc with
      | some _ => .multi
      | none => scanCands cx r ti rest (some pr)
    else scanCands cx r ti rest acc

/-- Candidate selection of `do_eager_inlining`: zero rules mean no
candidate; exactly one rule is the candidate unconditionally; otherwise
the unifying-rule scan decides. -/
def selectCandidate (cx : Ctx) (r : Rule) (ti : Nat)
    (predRules : List Rule) : CandSel :=
  match predRules with
  | [] => .nocand
  | [c] => .unique c
  | _ => scanCands cx r ti predRules none

/-- Outcome of `do_eager_inlining` on one rule: `noChange` is the
`return false` path, `deleted` covers `res = 0` with a delete-rule
record, and `inlined` records the source rule used and the resolvent. -/
inductive EagerOutcome where
  | noChange
  | deleted
  | inlined (src : Rule) (res : Rule)
deriving DecidableEq, Repr

/-- The tail-position loop of `mk_rule_inliner::do_eager_inlining(rule*, ...)`:
skip atoms whose predicate equals the head predicate or has facts; with
no candidate the rule is unsatisfiable and deleted; a non-unique
candidate or an unoriented candidate skips to the next tail position;
an oriented unique candidate is inlined, deleting the rule when
`try_to_inline` fails. -/
def eagerGo (cx : Ctx) (strat : Pred → Nat) (getRules : Pred → List Rule)
    (r : Rule) : List Atom → Nat → EagerOutcome
  | [], _ => .noChange
  | a :: rest, ti =>
    if a.pred = r.head.pred ∨ a.pred ∈ cx.predsWithFacts then
      eagerGo cx strat getRules r rest (ti + 1)
    else
      match selectCandidate cx r ti (getRules a.pred) with
      | .nocand => .deleted
      | .multi => eagerGo cx strat getRules r rest (ti + 1)
      | .unique c =>
        if isOrientedRewriter strat c then
          match tryToInline cx r ti c with
          | none => .deleted
          | some res => .inlined c res
        else eagerGo cx strat getRules r rest (ti + 1)

/-- `mk_rule_inliner::do_eager_inlining(rule*, rule_set const&, rule_ref&)`
over the rule's positive tail. -/
def doEagerRule (cx : Ctx) (strat : Pred → Nat) (getRules : Pred → List Rule)
    (r : Rule) : EagerOutcome :=
  eagerGo cx strat getRules r r.ptail 0

/-- The inner `while (r && do_eager_inlining(...))` loop of the eager
driver, with fuel: returns the final rule (`none` inside the pair when
the rule was deleted) and whether anything was done. -/
def eagerIter (cx : Ctx) (strat : Pred → Nat) (getRules : Pred → List Rule) :
    Nat → Rule → Option (Option Rule × Bool)
  | 0, _ => none
  | fuel + 1, r =>
    match doEagerRule cx strat getRules r with
    | .noChange => some (some r, false)
    | .deleted => some (none, true)
    | .inlined _ res =>
      match eagerIter cx strat getRules fuel res with
      | none => none
      | some (r2, _) => some (r2, true)

/-- The per-rule loop of `do_eager_inlining(scoped_ptr<rule_set>&)`:
every rule of the current set is iterated to a fixpoint (or deleted)
against the original set's rules. -/
def eagerPassLoop (cx : Ctx) (strat : Pred → Nat)
    (getRules : Pred → List Rule) (fuel : Nat) :
    List Rule → List Rule × Bool → Option (List Rule × Bool)
  | [], out => some out
  | r :: rest, (acc, sd) =>
    match eagerIter cx strat getRules fuel r with
    | none => none
    | some (some r2, d) => eagerPassLoop cx strat getRules fuel rest (acc ++ [r2], d || sd)
    | some (none, d) => eagerPassLoop cx strat getRules fuel rest (acc, d || sd)

/-- `do_eager_inlining(scoped_ptr<rule_set>&)`: the candidate rules are
looked up by head predicate in the incoming (unchanging) set; the new
set replaces the old one only when something was done. -/
def eagerPass (cx : Ctx) (strat : Pred → Nat) (fuel : Nat)
    (rules : List Rule) : Option (List Rule × Bool) :=
  let getRules := fun p => rules.filter (fun r => decide (r.head.pred = p))
  match eagerPassLoop cx strat getRules fuel rules ([], false) with
  | none => none
  | some (acc, sd) => some (if sd then acc else rules, sd)

/-- The identity substitution: what the external unifier produces when
the two unified atoms are syntactically equal ground atoms. -/
def idSubst : Subst := ⟨fun _ args => args, fun _ c => c⟩

/-- The external MGU instantiated for inputs whose atoms are all
ground: two ground atoms unify exactly when they are syntactically
equal, and the most general unifier is then the empty substitution. -/
def groundUnify (tgt : Rule) (i : Nat) (src : Rule) : Option Subst :=
  match tgt.ptail.get? i with
  | some a => if a = src.head then some idSubst else none
  | none => none

/-- A concrete context for ground examples: syntactic ground
unification, the trivial interpreted simplifier (faithful when the
involved interpreted tails are empty or inert), no unbound-variable
closure, and the default configuration (`inline-linear` true,
`inline-linear-branch` false); the stratifier puts one stratum per head
predicate in first-occurrence order. -/
def baseCtx : Ctx where
  outputPreds := []
  predsWithFacts := []
  unify := groundUnify
  simplifier := fun r => some r
  fixUnboundVars := false
  fixUV := id
  unifAtom := fun a b => decide (a = b)
  inlineLinearBranch := false
  inlineLinearFlag := true
  sccOf := fun rules =>
    (dedupFirst (rules.map (fun r => r.head.pred))).map (fun p => [p])
  stratOf := fun _ _ => 0

/-- Output predicate of the concrete examples. -/
def pOut : Pred := ⟨0, 0⟩

/-- Intermediate predicate `P` of the concrete examples. -/
def pP : Pred := ⟨1, 0⟩

/-- Intermediate predicate `Q` of the concrete examples. -/
def pQ : Pred := ⟨2, 0⟩

/-- Predicate `S` of the concrete examples. -/
def pS : Pred := ⟨3, 0⟩

/-- A ground, argumentless atom of the given predicate. -/
def atm (p : Pred) : Atom := ⟨p, []⟩

/-- The rule `Out :- P`. -/
def ruleOutP : Rule := ⟨atm pOut, [atm pP], [], []⟩

/-- The fact-like rule `P :- ⊤` (empty tail). -/
def ruleP : Rule := ⟨atm pP, [], [], []⟩

/-- The rule `S :- ¬P`. -/
def ruleSnegP : Rule := ⟨atm pS, [], [atm pP], []⟩

/-- The rule `Out :- φ` with a quantified interpreted constraint `φ`. -/
def ruleQuant : Rule := ⟨atm pOut, [], [], [⟨0, true⟩]⟩

/-- C1 counterexample: on the input rule set `{Out :- P}` with `Out`
declared output and `P` admissible (no facts, no negative occurrence,
not forbidden, `head_count[P] = 0 ≤ 1`) but without any defining rule,
the bulk stage's `transform_rule` pops the rule, finds the admissible
tail position, sets `modified`, has no defining rule of `P` to resolve
with, and emits nothing: the output-headed rule is deleted by the bulk
stage, refuting the claim that no stage ever deletes such a rule. -/
theorem C1_counterexample :
    ruleOutP.head.pred ∈ ({ baseCtx with outputPreds := [pOut] } : Ctx).outputPreds ∧
    transformRule { baseCtx with outputPreds := [pOut] }
      (countState [ruleOutP] []) (fun _ => []) 3 ruleOutP =
      some ([], true, [pP]) := by
  exact ⟨by decide, by decide⟩

/-- C2 counterexample: a target rule whose interpreted tail contains a
quantifier is popped by the bulk worklist and discarded (`continue`
without `add_rule`), not preserved verbatim: with input `{Out :- φ}`
(`φ` quantified) the stage's output is empty. -/
theorem C2_counterexample :
    hasQuantifier ruleQuant = true ∧
    transformRule { baseCtx with outputPreds := [pOut] }
      (countState [ruleQuant] []) (fun _ => []) 2 ruleQuant =
      some ([], false, []) := by
  exact ⟨rfl, by decide⟩

/-- C2 (amended): a quantifier in the *source* rule makes
`try_to_inline` skip the pair, leaving the target untouched; but a
*target* rule whose own interpreted tail has a quantifier is dropped
from the bulk stage's output entirely (popped and discarded), rather
than preserved verbatim. -/
theorem C2_amended (cx : Ctx) (st : PlanState) (inl : Pred → List Rule)
    (tgt : Rule) (i : Nat) (src : Rule) (fuel : Nat) (todo : List Rule)
    (out : List Rule × Bool × List Pred)
    (hq : hasQuantifier src = true) (hq2 : hasQuantifier tgt = true) :
    tryToInline cx tgt i src = none ∧
    transformRuleLoop cx st inl (fuel + 1) (tgt :: todo) out =
      transformRuleLoop cx st inl fuel todo out := by
  constructor
  · unfold tryToInline
    rw [hq]
    rfl
  · obtain ⟨acc, m, srcs⟩ := out
    simp only [transformRuleLoop, hq2]
    simp

/-- Witness for `C2_amended` at a concrete input. -/
theorem C2_amended_witness :
    tryToInline baseCtx ruleOutP 0 ruleQuant = none ∧
    transformRuleLoop baseCtx (countState [] []) (fun _ => []) 1
      [ruleQuant] ([], false, []) =
      transformRuleLoop baseCtx (countState [] []) (fun _ => []) 0 []
        ([], false, []) :=
  C2_amended baseCtx (countState [] []) (fun _ => []) ruleQuant 0 ruleQuant 0
    [] ([], false, []) rfl rfl

/-- If `firstInl` selects a position then its atom's predicate is
admissible. -/
theorem firstInl_allowed (cx : Ctx) (st : PlanState) :
    ∀ (atoms : List Atom) (i : Nat) (a : Atom),
      firstInl cx st atoms = some (i, a) → inliningAllowed cx st a.pred = true
  | [], _, _, h => by simp [firstInl] at h
  | b :: rest, i, a, h => by
    rw [firstInl] at h
    by_cases hb : inliningAllowed cx st b.pred = true
    · rw [if_pos hb] at h
      cases h
      exact hb
    · rw [if_neg hb] at h
      match hrec : firstInl cx st rest with
      | none => rw [hrec] at h; cases h
      | some (j, c) =>
        rw [hrec] at h
        cases h
        exact firstInl_allowed cx st rest j c hrec

/-- The bulk worklist only records admissible predicates as resolution
sources. -/
theorem transformRuleLoop_srcs_allowed (cx : Ctx) (st : PlanState)
    (inl : Pred → List Rule) (p : Pred)
    (hp : inliningAllowed cx st p = false) :
    ∀ (fuel : Nat) (todo : List Rule) (out : List Rule × Bool × List Pred)
      (res : List Rule × Bool × List Pred),
      transformRuleLoop cx st inl fuel todo out = some res →
      p ∉ out.2.2 → p ∉ res.2.2 := by
  intro fuel
  induction fuel with
  | zero =>
    intro todo out res h hout
    match todo with
    | [] => cases h; exact hout
  | succ n ih =>
    intro todo out res h hout
    match todo with
    | [] => cases h; exact hout
    | r :: rest =>
      obtain ⟨acc, m, srcs⟩ := out
      rw [transformRuleLoop] at h
      by_cases hq : hasQuantifier r = true
      · rw [if_pos hq] at h
        exact ih rest _ res h hout
      · rw [if_neg hq] at h
        match hfi : firstInl cx st r.ptail with
        | none =>
          rw [hfi] at h
          exact ih rest _ res h hout
        | some (i, a) =>
          rw [hfi] at h
          refine ih _ _ res h ?_
          simp only [List.mem_append, List.mem_singleton]
          rintro (hmem | hpa)
          · exact hout hmem
          · have := firstInl_allowed cx st r.ptail i a hfi
            rw [hpa] at hp
            rw [hp] at this
            exact Bool.false_ne_true this

/-- C3 (amended): a predicate with a negative occurrence in the input
rule set is never admissible, and therefore the planned bulk inliner
never uses its defining rules as a resolution source: no worklist run
of `transform_rule` records it among the inlined predicates.  (The
eager and linear stages, which only check the head predicate and the
facts set, *can* use such a predicate's rules as a source — see the
counterexample.) -/
theorem C3_amended (cx : Ctx) (rules : List Rule) (forb : List Pred)
    (p : Pred) (hneg : negOcc rules p = true) :
    inliningAllowed cx (countState rules forb) p = false ∧
    ∀ (inl : Pred → List Rule) (fuel : Nat) (r0 : Rule)
      (res : List Rule × Bool × List Pred),
      transformRule cx (countState rules forb) inl fuel r0 = some res →
      p ∉ res.2.2 := by
  have hallow : inliningAllowed cx (countState rules forb) p = false := by
    unfold inliningAllowed
    rw [if_pos]
    right; right; left
    exact hneg
  refine ⟨hallow, ?_⟩
  intro inl fuel r0 res h
  exact transformRuleLoop_srcs_allowed cx (countState rules forb) inl p hallow
    fuel [r0] ([], false, []) res h (by simp)

/-- Witness for `C3_amended` at a concrete input: `P` occurs negated in
`{Out :- P, P :- ⊤, S :- ¬P}`, is not admissible, and a concrete
worklist run records no source predicate at all. -/
theorem C3_amended_witness :
    inliningAllowed baseCtx (countState [ruleOutP, ruleP, ruleSnegP] []) pP =
      false ∧
    pP ∉ ((([ruleSnegP], false, []) : List Rule × Bool × List Pred)).2.2 :=
  ⟨(C3_amended baseCtx [ruleOutP, ruleP, ruleSnegP] [] pP (by decide)).1,
   (C3_amended baseCtx [ruleOutP, ruleP, ruleSnegP] [] pP (by decide)).2
     (fun _ => []) 2 ruleSnegP ([ruleSnegP], false, []) (by decide)⟩

/-- C3 counterexample: in the rule set `{Out :- P, P :- ⊤, S :- ¬P}`
the predicate `P` occurs negated, yet the eager inliner resolves `P`'s
defining rule into `Out :- P` (the eager stage checks only the head
predicate and the facts set, not negative occurrences): `P`'s rules are
used as a resolution source by a stage of the pass. -/
theorem C3_counterexample :
    negOcc [ruleOutP, ruleP, ruleSnegP] pP = true ∧
    doEagerRule { baseCtx with outputPreds := [pOut] } (fun _ => 0)
      (fun p => [ruleOutP, ruleP, ruleSnegP].filter
        (fun r => decide (r.head.pred = p))) ruleOutP =
      .inlined ruleP ⟨atm pOut, [], [], []⟩ := by
  exact ⟨by decide, by decide⟩

/-- A successful eager inline step only ever consumes a candidate that
passed the oriented-rewriter check. -/
theorem eagerGo_inlined_oriented (cx : Ctx) (strat : Pred → Nat)
    (getRules : Pred → List Rule) (r : Rule) :
    ∀ (atoms : List Atom) (ti : Nat) (c res : Rule),
      eagerGo cx strat getRules r atoms ti = .inlined c res →
      isOrientedRewriter strat c = true
  | [], _, _, _, h => by simp [eagerGo] at h
  | a :: rest, ti, c, res, h => by
    rw [eagerGo] at h
    split at h
    · exact eagerGo_inlined_oriented cx strat getRules r rest (ti + 1) c res h
    · match hsel : selectCandidate cx r ti (getRules a.pred) with
      | .nocand =>
        simp only [hsel] at h
        exact absurd h (by simp)
      | .multi =>
        simp only [hsel] at h
        exact eagerGo_inlined_oriented cx strat getRules r rest (ti + 1) c res h
      | .unique c0 =>
        simp only [hsel] at h
        by_cases hor : isOrientedRewriter strat c0 = true
        · rw [if_pos hor] at h
          match htr : tryToInline cx r ti c0 with
          | none =>
            simp only [htr] at h
            exact absurd h (by simp)
          | some res0 =>
            simp only [htr] at h
            cases h
            exact hor
        · rw [if_neg hor] at h
          exact eagerGo_inlined_oriented cx strat getRules r rest (ti + 1) c res h

/-- C5: under the stratifier invariant asserted by the source (a
positive tail predicate's stratum never exceeds the head's),
`is_oriented_rewriter` returns true iff every positive tail predicate
is lexicographically below the head predicate — strictly lower
stratum, or same stratum and smaller arity, or same stratum, same
arity and smaller id; and every successful eager-inline step consumes a
candidate satisfying this criterion. -/
theorem C5_oriented_rewriter (strat : Pred → Nat) (r : Rule)
    (h : ∀ a ∈ r.ptail, strat a.pred ≤ strat r.head.pred) :
    (isOrientedRewriter strat r = true ↔
      ∀ a ∈ r.ptail,
        strat a.pred < strat r.head.pred ∨
        (strat a.pred = strat r.head.pred ∧
          (a.pred.arity < r.head.pred.arity ∨
           (a.pred.arity = r.head.pred.arity ∧
            a.pred.id < r.head.pred.id)))) ∧
    (∀ (cx : Ctx) (getRules : Pred → List Rule) (r2 : Rule)
       (atoms : List Atom) (ti : Nat) (c res : Rule),
       eagerGo cx strat getRules r2 atoms ti = .inlined c res →
       isOrientedRewriter strat c = true) := by
  constructor
  · unfold isOrientedRewriter
    rw [List.all_eq_true]
    constructor
    · intro hall a ha
      have hb := hall a ha
      have hle := h a ha
      by_cases hs : strat a.pred = strat r.head.pred
      · rw [if_pos hs] at hb
        refine Or.inr ⟨hs, ?_⟩
        simp only [Bool.not_eq_true', Bool.or_eq_false_iff,
          Bool.and_eq_false_iff, decide_eq_false_iff_not, not_lt, not_le] at hb
        obtain ⟨h1, h2⟩ := hb
        rcases h2 with h2 | h2
        · exact Or.inl (lt_of_le_of_ne h1 h2)
        · rcases lt_or_eq_of_le h1 with h3 | h3
          · exact Or.inl h3
          · exact Or.inr ⟨h3, h2⟩
      · exact Or.inl (lt_of_le_of_ne hle hs)
    · intro hlex a ha
      rcases hlex a ha with hlt | ⟨hs, hrest⟩
      · rw [if_neg (Nat.ne_of_lt hlt)]
      · rw [if_pos hs]
        simp only [Bool.not_eq_true', Bool.or_eq_false_iff,
          Bool.and_eq_false_iff, decide_eq_false_iff_not, not_lt, not_le]
        rcases hrest with h1 | ⟨h1, h2⟩
        · exact ⟨Nat.le_of_lt h1, Or.inl (Nat.ne_of_lt h1)⟩
        · exact ⟨Nat.le_of_eq h1, Or.inr h2⟩
  · intro cx getRules r2 atoms ti c res hgo
    exact eagerGo_inlined_oriented cx strat getRules r2 atoms ti c res hgo

/-- Witness for `C5_oriented_rewriter`: a concrete rule whose single
tail predicate sits in a strictly lower stratum is an oriented
rewriter. -/
theorem C5_oriented_rewriter_witness :
    isOrientedRewriter (fun p => if p = pOut then 1 else 0) ruleOutP = true :=
  (C5_oriented_rewriter (fun p => if p = pOut then 1 else 0) ruleOutP
    (by decide)).1.mpr (by decide)

/-- C9 (amended): for the inspected positive tail atom `a` (predicate
distinct from the rule's head predicate and absent from the facts set),
the eager inliner deletes the rule exactly when no candidate exists
(zero defining rules, or several rules none of which unifies) or when
the unique candidate passes the oriented-rewriter check and
`try_to_inline` fails on it (unification failure, quantifier in the
candidate, or unsatisfiable interpreted tail); a unique candidate
failing the orientation check, like a tail atom with several unifying
rules, merely skips this tail position. -/
theorem C9_eager_delete (cx : Ctx) (strat : Pred → Nat)
    (getRules : Pred → List Rule) (r : Rule) (a : Atom) (rest : List Atom)
    (ti : Nat)
    (hp : ¬(a.pred = r.head.pred ∨ a.pred ∈ cx.predsWithFacts)) :
    (getRules a.pred = [] →
      eagerGo cx strat getRules r (a :: rest) ti = .deleted) ∧
    (selectCandidate cx r ti (getRules a.pred) = .nocand →
      eagerGo cx strat getRules r (a :: rest) ti = .deleted) ∧
    (∀ c, selectCandidate cx r ti (getRules a.pred) = .unique c →
      isOrientedRewriter strat c = true → tryToInline cx r ti c = none →
      eagerGo cx strat getRules r (a :: rest) ti = .deleted) ∧
    (∀ c, selectCandidate cx r ti (getRules a.pred) = .unique c →
      isOrientedRewriter strat c = false →
      eagerGo cx strat getRules r (a :: rest) ti =
        eagerGo cx strat getRules r rest (ti + 1)) ∧
    (selectCandidate cx r ti (getRules a.pred) = .multi →
      eagerGo cx strat getRules r (a :: rest) ti =
        eagerGo cx strat getRules r rest (ti + 1)) := by
  refine ⟨?_, ?_, ?_, ?_, ?_⟩
  · intro hz
    simp [eagerGo, hp, hz, selectCandidate]
  · intro hsel
    simp [eagerGo, hp, hsel]
  · intro c hsel hor htr
    simp [eagerGo, hp, hsel, hor, htr]
  · intro c hsel hor
    simp [eagerGo, hp, hsel, hor]
  · intro hsel
    simp [eagerGo, hp, hsel]

/-- The candidate rule of the C9 counterexample: `P5 :- P5, φ` with a
quantified interpreted constraint `φ`; its positive tail predicate
equals its head predicate, so it is not an oriented rewriter. -/
def ruleP5self : Rule := ⟨⟨⟨5, 0⟩, []⟩, [⟨⟨5, 0⟩, []⟩], [], [⟨0, true⟩]⟩

/-- The target rule of the C9 counterexample: `Out :- P5`. -/
def ruleOutP5 : Rule := ⟨atm pOut, [⟨⟨5, 0⟩, []⟩], [], []⟩

/-- C9 counterexample: `P5` has exactly one defining rule, which fails
`try_to_inline` (it carries a quantifier), so by the claim the target
`Out :- P5` should be deleted; but the candidate is not an oriented
rewriter, so the eager inliner skips the tail position and returns "no
change" — the rule is kept, refuting the claim's "whenever". -/
theorem C9_counterexample :
    (fun p => [ruleP5self].filter (fun r2 => decide (r2.head.pred = p)))
        (⟨5, 0⟩ : Pred) = [ruleP5self] ∧
    tryToInline { baseCtx with outputPreds := [pOut] } ruleOutP5 0
      ruleP5self = none ∧
    doEagerRule { baseCtx with outputPreds := [pOut] } (fun _ => 0)
      (fun p => [ruleP5self].filter (fun r2 => decide (r2.head.pred = p)))
      ruleOutP5 = .noChange := by
  exact ⟨by decide, by decide, by decide⟩

/-- Witness for `C9_eager_delete`: the zero-rules case concretely
deletes the rule. -/
theorem C9_eager_delete_witness :
    eagerGo baseCtx (fun _ => 0) (fun _ => []) ruleOutP [atm pP] 0 =
      .deleted :=
  (C9_eager_delete baseCtx (fun _ => 0) (fun _ => []) ruleOutP (atm pP) [] 0
    (by decide)).1 rfl

/-- Insertion into the forbidden set (`m_forbidden_preds.insert`). -/
def insertPred (s : List Pred) (p : Pred) : List Pred :=
  if p ∈ s then s else s ++ [p]

/-- The inner double loop of `forbid_multiple_multipliers` for one
stratum predicate `hp`, flattened over the positive tail predicate
occurrences of `hp`'s rules (the source keeps no per-rule state).
`isMO` is the multi-occurrence flag computed at entry from the
immutable tail counter, the `Bool` argument is the local
`is_multi_head_pred` flag, and the final `Bool` is the
`something_forbidden` flag.  The first branch returning without
recursing is the `goto process_next_pred` of the source; the promotion
branch updates `head_count[hp]` in place, so the recursive call — the
subsequent iterations — sees the updated count. -/
def fmmOccs (cx : Ctx) (hp : Pred) (isMO : Bool) :
    List Pred → Bool → PlanState → Bool → PlanState × Bool
  | [], _, st, flag => (st, flag)
  | q :: rest, isMH, st, flag =>
    if inliningAllowed cx st q = false then fmmOccs cx hp isMO rest isMH st flag
    else if st.headCt q ≤ 1 then fmmOccs cx hp isMO rest isMH st flag
    else if isMH then ({ st with forbidden := insertPred st.forbidden hp }, true)
    else if isMO then
      fmmOccs cx hp isMO rest isMH
        { st with forbidden := insertPred st.forbidden q } true
    else
      fmmOccs cx hp isMO rest true
        { st with headCt := fun x =>
            if x = hp then st.headCt hp * st.headCt q else st.headCt x }
        flag

/-- One stratum of the admissible-set loop of
`forbid_multiple_multipliers`: compute the multi-head and
multi-occurrence flags of the stratum predicate and process the
positive tail occurrences of its rules. -/
def fmmStratum (cx : Ctx) (getRules : Pred → List Rule) (hp : Pred)
    (st : PlanState) (flag : Bool) : PlanState × Bool :=
  let isMH := decide (1 < st.headCt hp)
  let isMO := decide (1 < st.tailCt hp)
  let occs := (getRules hp).flatMap (fun r => r.ptail.map (fun a => a.pred))
  fmmOccs cx hp isMO occs isMH st flag

/-- The loop over the singleton strata of the proposed inlined rule
set (the source asserts each stratum has size one and takes its first
element). -/
def fmmStrata (cx : Ctx) (getRules : Pred → List Rule) :
    List (List Pred) → PlanState → Bool → PlanState × Bool
  | [], st, flag => (st, flag)
  | stratum :: rest, st, flag =>
    match stratum with
    | [] => fmmStrata cx getRules rest st flag
    | hp :: _ =>
      let sf := fmmStratum cx getRules hp st flag
      fmmStrata cx getRules rest sf.1 sf.2

/-- The per-rule positive-tail scan of the second
(`non-admissible-rules`) loop of `forbid_multiple_multipliers`: with a
local `has_multi_head_pred` flag, forbid every admissible multi-head
tail predicate after the first. -/
def fmmRuleScan (cx : Ctx) :
    List Pred → Bool → PlanState → Bool → PlanState × Bool
  | [], _, st, flag => (st, flag)
  | q :: rest, hasMulti, st, flag =>
    if inliningAllowed cx st q = false then fmmRuleScan cx rest hasMulti st flag
    else if st.headCt q ≤ 1 then fmmRuleScan cx rest hasMulti st flag
    else if hasMulti then
      fmmRuleScan cx rest hasMulti
        { st with forbidden := insertPred st.forbidden q } true
    else fmmRuleScan cx rest true st flag

/-- The second loop of `forbid_multiple_multipliers`: scan the rules of
the original set whose head is not admissible. -/
def fmmNonAdm (cx : Ctx) : List Rule → PlanState → Bool → PlanState × Bool
  | [], st, flag => (st, flag)
  | r :: rest, st, flag =>
    if inliningAllowed cx st r.head.pred = true then fmmNonAdm cx rest st flag
    else
      let sf := fmmRuleScan cx (r.ptail.map (fun a => a.pred)) false st flag
      fmmNonAdm cx rest sf.1 sf.2

/-- `mk_rule_inliner::forbid_multiple_multipliers`. -/
def forbidMultipleMultipliers (cx : Ctx) (orig : List Rule)
    (strata : List (List Pred)) (getRules : Pred → List Rule)
    (st : PlanState) : PlanState × Bool :=
  let sf := fmmStrata cx getRules strata st false
  fmmNonAdm cx orig sf.1 sf.2

/-- C6: when the multiplier guard, processing predicate `hp`,
encounters an admissible occurrence predicate `q` with
`head_count[q] > 1`: if `hp` is already marked multi-head, `hp` is
forbidden and the remaining occurrences are skipped (to the next
predicate); otherwise if `hp` is multi-occurrence, `q` is forbidden and
processing continues; otherwise `hp` is promoted to multi-head and
`head_count[hp]` becomes `head_count[hp] * head_count[q]` in place, so
the continuation sees the updated count. -/
theorem C6_multiplier_guard (cx : Ctx) (hp : Pred) (st : PlanState)
    (q : Pred) (rest : List Pred) (flag : Bool)
    (hq : inliningAllowed cx st q = true) (hm : 1 < st.headCt q) :
    (∀ isMO, fmmOccs cx hp isMO (q :: rest) true st flag =
      ({ st with forbidden := insertPred st.forbidden hp }, true)) ∧
    (fmmOccs cx hp true (q :: rest) false st flag =
      fmmOccs cx hp true rest false
        { st with forbidden := insertPred st.forbidden q } true) ∧
    (fmmOccs cx hp false (q :: rest) false st flag =
      fmmOccs cx hp false rest true
        { st with headCt := fun x =>
            if x = hp then st.headCt hp * st.headCt q else st.headCt x }
        flag ∧
     (fun x => if x = hp then st.headCt hp * st.headCt q else st.headCt x) hp =
       st.headCt hp * st.headCt q) := by
  have hn : ¬(st.headCt q ≤ 1) := Nat.not_le.mpr hm
  refine ⟨?_, ?_, ?_, ?_⟩
  · intro isMO
    simp [fmmOccs, hq, hn]
  · simp [fmmOccs, hq, hn]
  · simp [fmmOccs, hq, hn]
  · simp

/-- Witness for `C6_multiplier_guard` at a concrete planner state. -/
theorem C6_multiplier_guard_witness :
    fmmOccs baseCtx pS true [pP] true
      ⟨fun _ => 2, fun _ => 1, fun _ => false, []⟩ false =
      (⟨fun _ => 2, fun _ => 1, fun _ => false, insertPred [] pS⟩, true) :=
  (C6_multiplier_guard baseCtx pS ⟨fun _ => 2, fun _ => 1, fun _ => false, []⟩
    pP [] false (by decide) (by decide)).1 true

/-- Number of inlinable positions of a rule: positive tail atoms whose
predicate is admissible.  This is the measure that each bulk-inlining
expansion strictly reduces. -/
def inlCount (cx : Ctx) (st : PlanState) (r : Rule) : Nat :=
  (r.ptail.filter (fun a => inliningAllowed cx st a.pred)).length

/-- Worklist potential of one rule: `(B+1)^inlCount` for a bound `B` on
the number of defining rules per predicate. -/
def rulePot (cx : Ctx) (st : PlanState) (B : Nat) (r : Rule) : Nat :=
  (B + 1) ^ inlCount cx st r

/-- Total potential of a worklist. -/
def totalPot (cx : Ctx) (st : PlanState) (B : Nat) (todo : List Rule) : Nat :=
  (todo.map (rulePot cx st B)).sum

/-- `firstInl` returns the atom at the returned index. -/
theorem firstInl_get (cx : Ctx) (st : PlanState) :
    ∀ (atoms : List Atom) (i : Nat) (a : Atom),
      firstInl cx st atoms = some (i, a) → atoms.get? i = some a
  | [], _, _, h => by simp [firstInl] at h
  | b :: rest, i, a, h => by
    rw [firstInl] at h
    by_cases hb : inliningAllowed cx st b.pred = true
    · rw [if_pos hb] at h
      cases h
      rfl
    · rw [if_neg hb] at h
      match hrec : firstInl cx st rest with
      | none => rw [hrec] at h; cases h
      | some (j, c) =>
        rw [hrec] at h
        cases h
        simpa using firstInl_get cx st rest j c hrec

/-- Erasing a position whose element satisfies the filter predicate
removes exactly one element from the filtered list. -/
theorem length_filter_eraseIdx {α : Type} (p : α → Bool) :
    ∀ (l : List α) (i : Nat) (a : α), l.get? i = some a → p a = true →
      ((l.eraseIdx i).filter p).length + 1 = (l.filter p).length
  | [], i, _, h, _ => by simp at h
  | b :: rest, 0, a, h, hp => by
    have hb : b = a := by simpa using h
    subst hb
    simp [List.eraseIdx, List.filter_cons, hp]
  | b :: rest, i + 1, a, h, hp => by
    have ih := length_filter_eraseIdx p rest i a (by simpa using h) hp
    simp only [List.eraseIdx]
    by_cases hb : p b = true
    · simp only [List.filter_cons, hb, if_true]
      simp only [List.length_cons]
      omega
    · simp only [List.filter_cons, hb, if_false, Bool.false_eq_true]
      exact ih

/-- `dedupFirst` yields a sublist of its input. -/
theorem dedupFirst_sublist {α : Type} [DecidableEq α] :
    ∀ (l : List α), List.Sublist (dedupFirst l) l
  | [] => List.Sublist.refl []
  | a :: as => by
    rw [dedupFirst]
    exact List.Sublist.cons₂ a
      ((List.filter_sublist _).trans (dedupFirst_sublist as))

/-- The positive tail of a successful `try_to_inline` resolvent, under
the contracts of the external interpreted simplifier and
unbound-variable closure (both only touch the interpreted tail): it is
the de-duplicated concatenation of the target's positive tail minus the
resolved position and the source's positive tail, under the
substitution. -/
theorem tryToInline_ptail (cx : Ctx)
    (Hsimp : ∀ r r2, cx.simplifier r = some r2 → r2.ptail = r.ptail)
    (Hfix : ∀ r, (cx.fixUV r).ptail = r.ptail)
    (tgt : Rule) (i : Nat) (src : Rule) (res : Rule)
    (h : tryToInline cx tgt i src = some res) :
    ∃ s : Subst,
      res.ptail = dedupFirst ((tgt.ptail.eraseIdx i).map (substAtom s true) ++
        src.ptail.map (substAtom s false)) := by
  unfold tryToInline at h
  by_cases hq : hasQuantifier src = true
  · rw [if_pos hq] at h; cases h
  · rw [if_neg hq] at h
    match hu : cx.unify tgt i src with
    | none => rw [hu] at h; cases h
    | some s =>
      simp only [hu] at h
      refine ⟨s, ?_⟩
      unfold unifierApply at h
      cases hfv : cx.fixUnboundVars with
      | true =>
        simp only [hfv, if_true] at h
        rw [Hsimp _ _ h, Hfix]
      | false =>
        simp only [hfv] at h
        rw [Hsimp _ _ h]
        simp

/-- Substitution application preserves predicates, so it preserves the
admissible-position count of an atom list. -/
theorem filter_allowed_map_subst (cx : Ctx) (st : PlanState) (s : Subst)
    (b : Bool) (l : List Atom) :
    ((l.map (substAtom s b)).filter
      (fun a => inliningAllowed cx st a.pred)).length =
    (l.filter (fun a => inliningAllowed cx st a.pred)).length := by
  rw [List.filter_map]
  rw [List.length_map]
  congr 1

/-- The key decrease fact of C7: if the popped rule's first admissible
position is resolved against a source rule that itself has no
admissible positive tail atom (the invariant of the `inlined_rules`
set), the resolvent has strictly fewer inlinable positions. -/
theorem inlCount_resolvent_lt (cx : Ctx) (st : PlanState)
    (Hsimp : ∀ r r2, cx.simplifier r = some r2 → r2.ptail = r.ptail)
    (Hfix : ∀ r, (cx.fixUV r).ptail = r.ptail)
    (r : Rule) (i : Nat) (a : Atom) (src : Rule) (res : Rule)
    (hfi : firstInl cx st r.ptail = some (i, a))
    (hsrc : ∀ b ∈ src.ptail, inliningAllowed cx st b.pred = false)
    (h : tryToInline cx r i src = some res) :
    inlCount cx st res < inlCount cx st r := by
  obtain ⟨s, hres⟩ := tryToInline_ptail cx Hsimp Hfix r i src res h
  have hget := firstInl_get cx st r.ptail i a hfi
  have hall := firstInl_allowed cx st r.ptail i a hfi
  have herase := length_filter_eraseIdx
    (fun b => inliningAllowed cx st b.pred) r.ptail i a hget hall
  have hle1 : inlCount cx st res ≤
      (((r.ptail.eraseIdx i).map (substAtom s true) ++
        src.ptail.map (substAtom s false)).filter
        (fun b => inliningAllowed cx st b.pred)).length := by
    unfold inlCount
    rw [hres]
    exact List.Sublist.length_le
      ((dedupFirst_sublist _).filter _)
  rw [List.filter_append, List.length_append] at hle1
  have hB : ((src.ptail.map (substAtom s false)).filter
      (fun b => inliningAllowed cx st b.pred)).length = 0 := by
    rw [filter_allowed_map_subst]
    rw [List.length_eq_zero]
    rw [List.filter_eq_nil_iff]
    intro b hb
    rw [hsrc b hb]
    exact Bool.false_ne_true
  rw [filter_allowed_map_subst, hB] at hle1
  have hIr : inlCount cx st r =
      (r.ptail.filter (fun b => inliningAllowed cx st b.pred)).length := rfl
  omega

/-- Total worklist potential strictly decreases in the inline step:
the popped rule's potential exceeds the summed potential of the pushed
resolvents by at least one. -/
theorem totalPot_inline_step (cx : Ctx) (st : PlanState) (B : Nat)
    (r : Rule) (results : List Rule)
    (hc : 1 ≤ inlCount cx st r)
    (hlen : results.length ≤ B)
    (hres : ∀ x ∈ results, inlCount cx st x < inlCount cx st r) :
    totalPot cx st B results + 1 ≤ rulePot cx st B r := by
  have hbound : ∀ x ∈ results.map (rulePot cx st B),
      x ≤ (B + 1) ^ (inlCount cx st r - 1) := by
    intro x hx
    obtain ⟨y, hy, hxy⟩ := List.mem_map.mp hx
    subst hxy
    unfold rulePot
    exact Nat.pow_le_pow_right (Nat.succ_le_succ (Nat.zero_le B))
      (by have := hres y hy; omega)
  have hsum : totalPot cx st B results ≤
      results.length * (B + 1) ^ (inlCount cx st r - 1) := by
    unfold totalPot
    have := List.sum_le_card_nsmul (results.map (rulePot cx st B))
      ((B + 1) ^ (inlCount cx st r - 1)) hbound
    simpa using this
  have hpos : 1 ≤ (B + 1) ^ (inlCount cx st r - 1) :=
    Nat.one_le_pow _ _ (Nat.succ_pos B)
  have hpot : rulePot cx st B r =
      (B + 1) * (B + 1) ^ (inlCount cx st r - 1) := by
    unfold rulePot
    obtain ⟨c, hc2⟩ : ∃ c, inlCount cx st r = c + 1 :=
      ⟨inlCount cx st r - 1, by omega⟩
    rw [hc2]
    have hsimp1 : c + 1 - 1 = c := rfl
    rw [hsimp1, pow_succ]
    ring
  have hmul : results.length * (B + 1) ^ (inlCount cx st r - 1) ≤
      B * (B + 1) ^ (inlCount cx st r - 1) :=
    Nat.mul_le_mul_right _ hlen
  rw [hpot]
  have : (B + 1) * (B + 1) ^ (inlCount cx st r - 1) =
      B * (B + 1) ^ (inlCount cx st r - 1) +
      (B + 1) ^ (inlCount cx st r - 1) := by ring
  omega

/-- The fueled worklist succeeds whenever the fuel exceeds the total
potential, under the `inlined_rules` invariant and the external
contracts. -/
theorem transformRuleLoop_isSome (cx : Ctx) (st : PlanState)
    (inl : Pred → List Rule) (B : Nat)
    (HB : ∀ p, (inl p).length ≤ B)
    (Hinl : ∀ p src, src ∈ inl p →
      ∀ b ∈ src.ptail, inliningAllowed cx st b.pred = false)
    (Hsimp : ∀ r r2, cx.simplifier r = some r2 → r2.ptail = r.ptail)
    (Hfix : ∀ r, (cx.fixUV r).ptail = r.ptail) :
    ∀ (fuel : Nat) (todo : List Rule) (out : List Rule × Bool × List Pred),
      totalPot cx st B todo < fuel →
      (transformRuleLoop cx st inl fuel todo out).isSome = true := by
  intro fuel
  induction fuel with
  | zero =>
    intro todo out h
    exact absurd h (Nat.not_lt_zero _)
  | succ n ih =>
    intro todo out h
    match todo with
    | [] => rfl
    | r :: rest =>
      obtain ⟨acc, m, srcs⟩ := out
      rw [transformRuleLoop]
      have hpos : 1 ≤ rulePot cx st B r := Nat.one_le_pow _ _ (Nat.succ_pos B)
      have htot : totalPot cx st B (r :: rest) =
          rulePot cx st B r + totalPot cx st B rest := by
        unfold totalPot
        simp
      by_cases hq : hasQuantifier r = true
      · rw [if_pos hq]
        exact ih rest _ (by omega)
      · rw [if_neg hq]
        match hfi : firstInl cx st r.ptail with
        | none => exact ih rest _ (by omega)
        | some (i, a) =>
          have hall := firstInl_allowed cx st r.ptail i a hfi
          have hget := firstInl_get cx st r.ptail i a hfi
          have hc : 1 ≤ inlCount cx st r := by
            unfold inlCount
            have hmem : a ∈ r.ptail.filter
                (fun b => inliningAllowed cx st b.pred) :=
              List.mem_filter.mpr ⟨List.get?_mem hget, hall⟩
            exact List.length_pos.mpr (List.ne_nil_of_mem hmem)
          have hresall : ∀ x ∈ (inl a.pred).filterMap
              (fun src => tryToInline cx r i src),
              inlCount cx st x < inlCount cx st r := by
            intro x hx
            obtain ⟨src, hsrc, htx⟩ := List.mem_filterMap.mp hx
            exact inlCount_resolvent_lt cx st Hsimp Hfix r i a src x hfi
              (Hinl a.pred src hsrc) htx
          have hlen : ((inl a.pred).filterMap
              (fun src => tryToInline cx r i src)).length ≤ B :=
            le_trans (List.length_filterMap_le _ _) (HB a.pred)
          have hstep := totalPot_inline_step cx st B r
            ((inl a.pred).filterMap (fun src => tryToInline cx r i src))
            hc hlen hresall
          have hrev : totalPot cx st B
              (((inl a.pred).filterMap
                (fun src => tryToInline cx r i src)).reverse ++ rest) =
              totalPot cx st B ((inl a.pred).filterMap
                (fun src => tryToInline cx r i src)) +
              totalPot cx st B rest := by
            unfold totalPot
            rw [List.map_append, List.sum_append, List.map_reverse,
              List.sum_reverse]
          exact ih _ _ (by omega)

/-- C7: the worklist loop of `transform_rule` terminates.  If every
rule of the `inlined_rules` set has no positive tail atom with an
admissible predicate (the invariant established by `plan_inlining`,
which adds a rule to the set only after resolving all such atoms away),
then each bulk-inlining expansion strictly reduces the number of
inlinable tail positions of the popped rule, and with fuel exceeding
the initial potential `(B+1)^inlCount` the worklist run of
`transform_rule` completes.  The hypotheses on the simplifier and on
the unbound-variable closure are the external contracts (both leave the
uninterpreted positive tail unchanged). -/
theorem C7_transform_rule_terminates (cx : Ctx) (st : PlanState)
    (inl : Pred → List Rule) (B : Nat)
    (HB : ∀ p, (inl p).length ≤ B)
    (Hinl : ∀ p src, src ∈ inl p →
      ∀ b ∈ src.ptail, inliningAllowed cx st b.pred = false)
    (Hsimp : ∀ r r2, cx.simplifier r = some r2 → r2.ptail = r.ptail)
    (Hfix : ∀ r, (cx.fixUV r).ptail = r.ptail) :
    (∀ (r : Rule) (i : Nat) (a : Atom) (src res : Rule),
      firstInl cx st r.ptail = some (i, a) → src ∈ inl a.pred →
      tryToInline cx r i src = some res →
      inlCount cx st res < inlCount cx st r) ∧
    (∀ (fuel : Nat) (r0 : Rule), totalPot cx st B [r0] < fuel →
      (transformRule cx st inl fuel r0).isSome = true) := by
  constructor
  · intro r i a src res hfi hsrc htx
    exact inlCount_resolvent_lt cx st Hsimp Hfix r i a src res hfi
      (Hinl a.pred src hsrc) htx
  · intro fuel r0 h
    exact transformRuleLoop_isSome cx st inl B HB Hinl Hsimp Hfix fuel [r0]
      ([], false, []) h

/-- Witness for `C7_transform_rule_terminates`: a concrete planned set
`{P :- ⊤}` (no admissible tail atoms) and target `Out :- P`, with
`B = 1`: fuel `3` exceeds the potential `2` and the worklist
completes. -/
theorem C7_transform_rule_terminates_witness :
    (transformRule { baseCtx with outputPreds := [pOut] }
      (countState [ruleOutP, ruleP] [])
      (fun p => if p = pP then [ruleP] else []) 3 ruleOutP).isSome = true := by
  refine (C7_transform_rule_terminates
    { baseCtx with outputPreds := [pOut] }
    (countState [ruleOutP, ruleP] [])
    (fun p => if p = pP then [ruleP] else []) 1 ?_ ?_ ?_ ?_).2 3 ruleOutP ?_
  · intro p
    by_cases hp : p = pP <;> simp [hp]
  · intro p src hsrc
    have : p = pP := by
      by_cases hp : p = pP
      · exact hp
      · simp [hp] at hsrc
    subst this
    simp at hsrc
    subst hsrc
    intro b hb
    simp [ruleP] at hb
  · intro r r2 h
    cases h
    rfl
  · intro r
    rfl
  · decide

/-- Pointwise update of a `Nat`-indexed map. -/
def updN {α : Type} (f : Nat → α) (i : Nat) (v : α) : Nat → α :=
  fun m => if m = i then v else f m

/-- State of the linear inliner: the position multimaps of the head and
tail unification indices (a pair `(atom, position)` per entry, exactly
the content of the `m_positions` maps of the two visitors), the per-rule
flags, and the current rule at each position (`acc`). -/
structure LinState where
  headPos : List (Atom × Nat)
  tailPos : List (Atom × Nat)
  canRemove : Nat → Bool
  canExpand : Nat → Bool
  valid : Nat → Bool
  acc : Nat → Rule

/-- `mk_rule_inliner::add_rule(rule*, unsigned)`: record the head atom's
position, clear `can_remove` when the head predicate is an output
predicate or backed by facts, record every uninterpreted tail atom's
position (positive and negated alike), and set `can_expand` to whether
the rule is a unit positive-tail rule whose tail predicate is neither
output nor backed by facts. -/
def addRuleL (cx : Ctx) (r : Rule) (i : Nat) (st : LinState) : LinState :=
  let st1 := { st with headPos := st.headPos ++ [(r.head, i)] }
  let st2 :=
    if r.head.pred ∈ cx.outputPreds ∨ r.head.pred ∈ cx.predsWithFacts then
      { st1 with canRemove := updN st1.canRemove i false }
    else st1
  let st3 := { st2 with
    tailPos := st2.tailPos ++ (r.ptail ++ r.ntail).map (fun a => (a, i)) }
  let canExp :=
    match r.ptail, r.ntail with
    | [a], [] =>
      !(decide (a.pred ∈ cx.predsWithFacts)) &&
      !(decide (a.pred ∈ cx.outputPreds))
    | _, _ => false
  { st3 with canExpand := updN st3.canExpand i canExp }

/-- `mk_rule_inliner::del_rule(rule*, unsigned)`: remove the head
position entry and one tail position entry per uninterpreted tail
atom. -/
def delRuleL (r : Rule) (i : Nat) (st : LinState) : LinState :=
  { st with
    headPos := st.headPos.erase (r.head, i),
    tailPos := (r.ptail ++ r.ntail).foldl
      (fun tp a => tp.erase (a, i)) st.tailPos }

/-- The positions returned by `m_head_index.unify(q, visitor)`: all
positions recorded for index atoms that unify with the query.  (The
substitution-tree index visits each distinct stored atom once and the
visitor appends that atom's position vector, which is the same multiset
as filtering the position entries by unifiability.) -/
def headUnifiers (cx : Ctx) (st : LinState) (q : Atom) : List Nat :=
  (st.headPos.filter (fun e => cx.unifAtom q e.1)).map (fun e => e.2)

/-- The positions returned by `m_tail_index.unify(q, visitor)`. -/
def tailUnifiers (cx : Ctx) (st : LinState) (q : Atom) : List Nat :=
  (st.tailPos.filter (fun e => cx.unifAtom q e.1)).map (fun e => e.2)

/-- One iteration of the inner `while (true)` loop of
`mk_rule_inliner::inline_linear` at position `i`: `none` is the `break`
(the position is finished), `some` is a successful inline step with the
updated state.  The guards follow the source: validity and
expandability of `i`, a unique head unifier `j` with `can_remove[j]`,
`valid[j]`, `i ≠ j`, the tail-unifier count `k` (`k = 1` required
unless branching is allowed), then `try_to_inline`; on success the old
rule's index entries are replaced by the resolvent's, `can_expand[i]`
is inherited from `j`, and when `k = 1` rule `j` is invalidated and
deleted from the indices.  (The source reads `get_tail(0)` relying on
the `can_expand` invariant that the tail is non-empty; an empty
positive tail breaks instead of reading out of bounds.) -/
def linIter (cx : Ctx) (i : Nat) (st : LinState) : Option LinState :=
  if st.valid i = false then none
  else if st.canExpand i = false then none
  else
    match (st.acc i).ptail with
    | [] => none
    | t0 :: _ =>
      match headUnifiers cx st t0 with
      | [j] =>
        if st.canRemove j = false ∨ st.valid j = false ∨ i = j then none
        else
          if cx.inlineLinearBranch = false ∧
              (tailUnifiers cx st (st.acc j).head).length ≠ 1 then none
          else
            match tryToInline cx (st.acc i) 0 (st.acc j) with
            | none => none
            | some res =>
              let st1 := delRuleL (st.acc i) i st
              let st2 := addRuleL cx res i st1
              let st3 := { st2 with
                acc := updN st2.acc i res,
                canExpand := updN st2.canExpand i (st2.canExpand j) }
              some (if (tailUnifiers cx st (st.acc j).head).length = 1 then
                delRuleL (st.acc j) j { st3 with valid := updN st3.valid j false }
              else st3)
      | _ => none

/-- The fueled inner loop at one position, also or-ing the
`done_something` flag. -/
def linLoop (cx : Ctx) : Nat → Nat → LinState → Bool →
    Option (LinState × Bool)
  | 0, _, _, _ => none
  | f + 1, i, st, d =>
    match linIter cx i st with
    | none => some (st, d)
    | some st2 => linLoop cx f i st2 true

/-- The outer loop of `inline_linear` over the rule positions. -/
def linOuter (cx : Ctx) (fuel : Nat) :
    List Nat → LinState → Bool → Option (LinState × Bool)
  | [], st, d => some (st, d)
  | i :: rest, st, d =>
    match linLoop cx fuel i st d with
    | none => none
    | some sd => linOuter cx fuel rest sd.1 sd.2

/-- The initial linear-inliner state: all flags reset to true, then
`add_rule` on every rule at its position. -/
def initLin (cx : Ctx) (rules : List Rule) : LinState :=
  let base : LinState :=
    ⟨[], [], fun _ => true, fun _ => true, fun _ => true,
      fun i => (rules.get? i).getD default⟩
  (List.range rules.length).foldl (fun s i => addRuleL cx (base.acc i) i s) base

/-- `mk_rule_inliner::inline_linear`: run the driver; when something
was done the output is rebuilt from the valid positions, otherwise the
rule set is unchanged. -/
def inlineLinear (cx : Ctx) (fuel : Nat) (rules : List Rule) :
    Option (List Rule × Bool) :=
  match linOuter cx fuel (List.range rules.length) (initLin cx rules) false with
  | none => none
  | some (st, d) =>
    some (if d then
        (List.range rules.length).filterMap
          (fun i => if st.valid i = true then some (st.acc i) else none)
      else rules, d)

/-- `add_rule` does not touch the `valid` flags. -/
theorem addRuleL_valid (cx : Ctx) (r : Rule) (i : Nat) (st : LinState) :
    (addRuleL cx r i st).valid = st.valid := by
  unfold addRuleL
  split <;> rfl

/-- `add_rule` does not touch the rule array. -/
theorem addRuleL_acc (cx : Ctx) (r : Rule) (i : Nat) (st : LinState) :
    (addRuleL cx r i st).acc = st.acc := by
  unfold addRuleL
  split <;> rfl

/-- `add_rule` appends every uninterpreted tail atom — negated atoms
included — to the tail index's position entries. -/
theorem addRuleL_tailPos (cx : Ctx) (r : Rule) (i : Nat) (st : LinState) :
    (addRuleL cx r i st).tailPos =
      st.tailPos ++ (r.ptail ++ r.ntail).map (fun a => (a, i)) := by
  unfold addRuleL
  split <;> rfl

/-- `add_rule` appends the head atom's position entry. -/
theorem addRuleL_headPos (cx : Ctx) (r : Rule) (i : Nat) (st : LinState) :
    (addRuleL cx r i st).headPos = st.headPos ++ [(r.head, i)] := by
  unfold addRuleL
  split <;> rfl

/-- The `can_remove` flags after `add_rule`: cleared at `i` when the
head predicate is an output predicate or backed by facts, otherwise
untouched (never set back to true). -/
theorem addRuleL_canRemove (cx : Ctx) (r : Rule) (i : Nat) (st : LinState) :
    (addRuleL cx r i st).canRemove =
      if r.head.pred ∈ cx.outputPreds ∨ r.head.pred ∈ cx.predsWithFacts then
        updN st.canRemove i false
      else st.canRemove := by
  unfold addRuleL
  split <;> rfl

/-- `del_rule` only touches the index position entries. -/
theorem delRuleL_valid (r : Rule) (i : Nat) (st : LinState) :
    (delRuleL r i st).valid = st.valid := rfl

/-- `del_rule` does not touch the rule array. -/
theorem delRuleL_acc (r : Rule) (i : Nat) (st : LinState) :
    (delRuleL r i st).acc = st.acc := rfl

/-- `del_rule` does not touch the `can_remove` flags. -/
theorem delRuleL_canRemove (r : Rule) (i : Nat) (st : LinState) :
    (delRuleL r i st).canRemove = st.canRemove := rfl

/-- `updN` at the updated index. -/
theorem updN_same {α : Type} (f : Nat → α) (i : Nat) (v : α) :
    updN f i v i = v := by
  simp [updN]

/-- `updN` away from the updated index. -/
theorem updN_other {α : Type} (f : Nat → α) (i : Nat) (v : α) (m : Nat)
    (h : m ≠ i) : updN f i v m = f m := by
  simp [updN, h]

/-- C10: the tail unification index receives an entry for every
uninterpreted tail atom of every added rule, negated atoms included
(so a negated occurrence of a callee's head predicate counts toward
the tail-unifier count `k`); and in a successful linear inline step
consuming callee `j`, rule `j` is invalidated exactly when `k = 1`. -/
theorem C10_linear_tail_index (cx : Ctx) (i : Nat) (st : LinState)
    (t0 : Atom) (ts : List Atom) (j : Nat) (res : Rule)
    (hv : st.valid i = true) (hce : st.canExpand i = true)
    (ht0 : (st.acc i).ptail = t0 :: ts)
    (hhu : headUnifiers cx st t0 = [j])
    (hcr : st.canRemove j = true) (hvj : st.valid j = true) (hij : i ≠ j)
    (hbr : ¬(cx.inlineLinearBranch = false ∧
      (tailUnifiers cx st (st.acc j).head).length ≠ 1))
    (htr : tryToInline cx (st.acc i) 0 (st.acc j) = some res) :
    (∀ (r : Rule) (m : Nat) (s2 : LinState),
      (addRuleL cx r m s2).tailPos =
        s2.tailPos ++ (r.ptail ++ r.ntail).map (fun a => (a, m))) ∧
    (linIter cx i st).isSome = true ∧
    (∀ st2, linIter cx i st = some st2 →
      (st2.valid j = false ↔
        (tailUnifiers cx st (st.acc j).head).length = 1)) := by
  have hrun : linIter cx i st = some (
      let st1 := delRuleL (st.acc i) i st
      let st2 := addRuleL cx res i st1
      let st3 := { st2 with
        acc := updN st2.acc i res,
        canExpand := updN st2.canExpand i (st2.canExpand j) }
      if (tailUnifiers cx st (st.acc j).head).length = 1 then
        delRuleL (st.acc j) j { st3 with valid := updN st3.valid j false }
      else st3) := by
    unfold linIter
    simp only [hv, hce, ht0, hhu, hcr, hvj, htr]
    simp [hij, hbr]
  refine ⟨fun r m s2 => addRuleL_tailPos cx r m s2, ?_, ?_⟩
  · rw [hrun]
    rfl
  · intro st2 heq
    rw [hrun] at heq
    have hst2 := Option.some_injective _ heq
    by_cases hk : (tailUnifiers cx st (st.acc j).head).length = 1
    · rw [if_pos hk] at hst2
      subst hst2
      rw [delRuleL_valid]
      simp only [updN]
      simp [hk]
    · rw [if_neg hk] at hst2
      subst hst2
      simp only [addRuleL_valid, delRuleL_valid]
      simp [hvj, hk]

/-- Predicate `A` of the linear-inliner witness. -/
def pA : Pred := ⟨10, 0⟩

/-- Predicate `B` of the linear-inliner witness. -/
def pB : Pred := ⟨11, 0⟩

/-- Rules of the linear-inliner witness: `A :- B`, `B :- ⊤`, `S :- ¬B`.
The negated occurrence of `B` contributes a tail-index entry, so the
callee `B :- ⊤` has tail-unifier count `k = 2` and is not invalidated. -/
def rulesLin : List Rule :=
  [⟨atm pA, [atm pB], [], []⟩, ⟨atm pB, [], [], []⟩, ⟨atm pS, [], [atm pB], []⟩]

/-- Witness for `C10_linear_tail_index`: with branching allowed, the
inline step at position 0 succeeds. -/
theorem C10_linear_tail_index_witness :
    (linIter { baseCtx with inlineLinearBranch := true } 0
      (initLin { baseCtx with inlineLinearBranch := true } rulesLin)).isSome =
      true :=
  (C10_linear_tail_index { baseCtx with inlineLinearBranch := true } 0
    (initLin { baseCtx with inlineLinearBranch := true } rulesLin)
    (atm pB) [] 1 ⟨atm pA, [], [], []⟩
    (by decide) (by decide) (by decide) (by decide) (by decide) (by decide)
    (by decide) (by decide) (by decide)).2.1

/-- The head predicate at a position of the input rule list. -/
def origHead (rules : List Rule) (m : Nat) : Pred :=
  ((rules.get? m).getD default).head.pred

/-- Invariant of the linear driver: every position's current rule keeps
the head predicate it started with, and every position holding an
output-headed rule has `can_remove` false and stays valid. -/
def OutInvariant (cx : Ctx) (rules : List Rule) (st : LinState) : Prop :=
  (∀ m, (st.acc m).head.pred = origHead rules m) ∧
  (∀ m, m < rules.length → origHead rules m ∈ cx.outputPreds →
    st.canRemove m = false ∧ st.valid m = true)

/-- The head of a successful `try_to_inline` resolvent keeps the
target's head predicate: substitution preserves predicate symbols, and
the interpreted simplifier and unbound-variable closure leave the head
atom unchanged (their external contracts). -/
theorem tryToInline_head (cx : Ctx)
    (Hsimp : ∀ r r2, cx.simplifier r = some r2 → r2.head = r.head)
    (Hfix : ∀ r, (cx.fixUV r).head = r.head)
    (tgt : Rule) (i : Nat) (src : Rule) (res : Rule)
    (h : tryToInline cx tgt i src = some res) :
    res.head.pred = tgt.head.pred := by
  unfold tryToInline at h
  by_cases hq : hasQuantifier src = true
  · rw [if_pos hq] at h; cases h
  · rw [if_neg hq] at h
    match hu : cx.unify tgt i src with
    | none => rw [hu] at h; cases h
    | some s =>
      simp only [hu] at h
      unfold unifierApply at h
      cases hfv : cx.fixUnboundVars with
      | true =>
        simp only [hfv, if_true] at h
        rw [Hsimp _ _ h, Hfix]
        rfl
      | false =>
        simp only [hfv] at h
        rw [Hsimp _ _ h]
        simp [substAtom]

/-- One successful linear-inliner iteration preserves the
output-protection invariant. -/
theorem linIter_preserves_OutInvariant (cx : Ctx) (rules : List Rule)
    (Hsimp : ∀ r r2, cx.simplifier r = some r2 → r2.head = r.head)
    (Hfix : ∀ r, (cx.fixUV r).head = r.head)
    (i : Nat) (st st2 : LinState)
    (hQ : OutInvariant cx rules st) (h : linIter cx i st = some st2) :
    OutInvariant cx rules st2 := by
  obtain ⟨hQ1, hQ2⟩ := hQ
  unfold linIter at h
  split at h
  · cases h
  split at h
  · cases h
  split at h
  · cases h
  rename_i t0 ts hpt
  split at h
  case _ =>
    rename_i xs j hju
    split at h
    · cases h
    rename_i hguard
    split at h
    · cases h
    split at h
    · cases h
    rename_i res htr
    simp only [not_or] at hguard
    obtain ⟨hg1, hg2, hg3⟩ := hguard
    have hvj : st.valid j = true := by
      cases hb : st.valid j with
      | false => exact absurd hb hg2
      | true => rfl
    have hhead : res.head.pred = (st.acc i).head.pred :=
      tryToInline_head cx Hsimp Hfix (st.acc i) 0 (st.acc j) res htr
    have hst2 := Option.some_injective _ h
    subst hst2
    constructor
    · intro m
      by_cases hk : (tailUnifiers cx st ((st.acc j).head)).length = 1
      · rw [if_pos hk]
        simp only [delRuleL_acc, addRuleL_acc]
        by_cases hm : m = i
        · subst hm
          rw [updN_same, hhead]
          exact hQ1 _
        · rw [updN_other _ _ _ _ hm]
          exact hQ1 m
      · rw [if_neg hk]
        simp only [delRuleL_acc, addRuleL_acc]
        by_cases hm : m = i
        · subst hm
          rw [updN_same, hhead]
          exact hQ1 _
        · rw [updN_other _ _ _ _ hm]
          exact hQ1 m
    · intro m hm hout
      have hcr : (addRuleL cx res i (delRuleL (st.acc i) i st)).canRemove m =
          false := by
        rw [addRuleL_canRemove]
        by_cases hres : res.head.pred ∈ cx.outputPreds ∨
            res.head.pred ∈ cx.predsWithFacts
        · rw [if_pos hres]
          by_cases hmi : m = i
          · subst hmi
            rw [updN_same]
          · rw [updN_other _ _ _ _ hmi]
            rw [delRuleL_canRemove]
            exact (hQ2 m hm hout).1
        · rw [if_neg hres]
          rw [delRuleL_canRemove]
          by_cases hmi : m = i
          · exfalso
            apply hres
            left
            rw [hhead, hQ1 i, ← hmi]
            exact hout
          · exact (hQ2 m hm hout).1
      have hmj : m ≠ j := by
        intro hmj
        subst hmj
        have := (hQ2 m hm hout).1
        exact hg1 this
      by_cases hk : (tailUnifiers cx st ((st.acc j).head)).length = 1
      · rw [if_pos hk]
        refine ⟨?_, ?_⟩
        · simp only [delRuleL_canRemove]
          exact hcr
        · simp only [delRuleL_valid, addRuleL_valid]
          rw [updN_other _ _ _ _ hmj]
          exact (hQ2 m hm hout).2
      · rw [if_neg hk]
        refine ⟨hcr, ?_⟩
        simp only [addRuleL_valid, delRuleL_valid]
        exact (hQ2 m hm hout).2
  case _ =>
    cases h

/-- The fueled inner loop preserves the output-protection invariant. -/
theorem linLoop_preserves_OutInvariant (cx : Ctx) (rules : List Rule)
    (Hsimp : ∀ r r2, cx.simplifier r = some r2 → r2.head = r.head)
    (Hfix : ∀ r, (cx.fixUV r).head = r.head) :
    ∀ (f i : Nat) (st : LinState) (d : Bool) (st2 : LinState) (d2 : Bool),
      OutInvariant cx rules st → linLoop cx f i st d = some (st2, d2) →
      OutInvariant cx rules st2
  | 0, _, _, _, _, _, _, h => by cases h
  | f + 1, i, st, d, st2, d2, hQ, h => by
    rw [linLoop] at h
    match hit : linIter cx i st with
    | none =>
      rw [hit] at h
      cases h
      exact hQ
    | some st3 =>
      rw [hit] at h
      exact linLoop_preserves_OutInvariant cx rules Hsimp Hfix f i st3 true
        st2 d2 (linIter_preserves_OutInvariant cx rules Hsimp Hfix i st st3
          hQ hit) h

/-- The outer loop preserves the output-protection invariant. -/
theorem linOuter_preserves_OutInvariant (cx : Ctx) (rules : List Rule)
    (Hsimp : ∀ r r2, cx.simplifier r = some r2 → r2.head = r.head)
    (Hfix : ∀ r, (cx.fixUV r).head = r.head) (fuel : Nat) :
    ∀ (idxs : List Nat) (st : LinState) (d : Bool) (st2 : LinState)
      (d2 : Bool),
      OutInvariant cx rules st → linOuter cx fuel idxs st d = some (st2, d2) →
      OutInvariant cx rules st2
  | [], st, d, st2, d2, hQ, h => by
    cases h
    exact hQ
  | idx :: rest, st, d, st2, d2, hQ, h => by
    rw [linOuter] at h
    match hl : linLoop cx fuel idx st d with
    | none => rw [hl] at h; cases h
    | some sd =>
      rw [hl] at h
      exact linOuter_preserves_OutInvariant cx rules Hsimp Hfix fuel rest
        sd.1 sd.2 st2 d2
        (linLoop_preserves_OutInvariant cx rules Hsimp Hfix fuel idx st d
          sd.1 sd.2 hQ (by rw [hl])) h

/-- Folding `add_rule` over positions never changes the rule array or
the `valid` flags. -/
theorem foldl_addRuleL_acc_valid (cx : Ctx) (g : Nat → Rule) :
    ∀ (l : List Nat) (st : LinState),
      ((l.foldl (fun s i2 => addRuleL cx (g i2) i2 s) st).acc = st.acc) ∧
      ((l.foldl (fun s i2 => addRuleL cx (g i2) i2 s) st).valid = st.valid)
  | [], _ => ⟨rfl, rfl⟩
  | i :: rest, st => by
    have ih := foldl_addRuleL_acc_valid cx g rest (addRuleL cx (g i) i st)
    refine ⟨?_, ?_⟩
    · rw [List.foldl_cons, ih.1, addRuleL_acc]
    · rw [List.foldl_cons, ih.2, addRuleL_valid]

/-- Folding `add_rule` over positions clears `can_remove` at every
position whose rule head is an output predicate, and never sets a
cleared flag back. -/
theorem foldl_addRuleL_canRemove_false (cx : Ctx) (g : Nat → Rule) :
    ∀ (l : List Nat) (st : LinState) (m : Nat),
      (st.canRemove m = false ∨
        (m ∈ l ∧ (g m).head.pred ∈ cx.outputPreds)) →
      (l.foldl (fun s i2 => addRuleL cx (g i2) i2 s) st).canRemove m = false
  | [], _, m, hyp => by
    rcases hyp with hyp | ⟨hmem, _⟩
    · exact hyp
    · cases hmem
  | i :: rest, st, m, hyp => by
    rw [List.foldl_cons]
    have hstep : ∀ s2 : LinState, s2.canRemove m = false →
        (addRuleL cx (g i) i s2).canRemove m = false := by
      intro s2 h2
      rw [addRuleL_canRemove]
      split
      · unfold updN
        split
        · rfl
        · exact h2
      · exact h2
    rcases hyp with hyp | ⟨hmem, hout⟩
    · exact foldl_addRuleL_canRemove_false cx g rest _ m
        (Or.inl (hstep st hyp))
    · rcases List.mem_cons.mp hmem with hmi | hmr
      · subst hmi
        refine foldl_addRuleL_canRemove_false cx g rest _ m (Or.inl ?_)
        rw [addRuleL_canRemove, if_pos (Or.inl hout)]
        unfold updN
        rw [if_pos rfl]
      · exact foldl_addRuleL_canRemove_false cx g rest _ m
          (Or.inr ⟨hmr, hout⟩)

/-- The initial linear state satisfies the output-protection
invariant. -/
theorem initLin_OutInvariant (cx : Ctx) (rules : List Rule) :
    OutInvariant cx rules (initLin cx rules) := by
  unfold initLin
  constructor
  · intro m
    rw [(foldl_addRuleL_acc_valid cx _ (List.range rules.length) _).1]
    rfl
  · intro m hm hout
    constructor
    · refine foldl_addRuleL_canRemove_false cx _ (List.range rules.length)
        _ m (Or.inr ⟨List.mem_range.mpr hm, ?_⟩)
      exact hout
    · rw [(foldl_addRuleL_acc_valid cx _ (List.range rules.length) _).2]

/-- C1 (amended): the linear stage never deletes a rule whose head
predicate is a declared output predicate — the position stays valid and
contributes a rule with the same output head predicate to the linear
stage's output.  (The bulk stage, by contrast, can drop an
output-headed rule when its interpreted tail is quantified or when
every resolution at its first admissible tail position fails — see the
counterexample — and the eager stage deletes a rule it finds
unsatisfiable.)  The hypotheses are the external contracts that the
interpreted simplifier and the unbound-variable closure leave the head
atom unchanged. -/
theorem C1_linear_keeps_output_rules (cx : Ctx) (rules : List Rule)
    (fuel : Nat) (out : List Rule) (d : Bool)
    (Hsimp : ∀ r r2, cx.simplifier r = some r2 → r2.head = r.head)
    (Hfix : ∀ r, (cx.fixUV r).head = r.head)
    (h : inlineLinear cx fuel rules = some (out, d))
    (i : Nat) (hi : i < rules.length)
    (ho : origHead rules i ∈ cx.outputPreds) :
    ∃ r2 ∈ out, r2.head.pred = origHead rules i := by
  unfold inlineLinear at h
  match hrun : linOuter cx fuel (List.range rules.length)
      (initLin cx rules) false with
  | none => rw [hrun] at h; cases h
  | some sd =>
    rw [hrun] at h
    obtain ⟨st, dd⟩ := sd
    have hQ := linOuter_preserves_OutInvariant cx rules Hsimp Hfix fuel
      (List.range rules.length) (initLin cx rules) false st dd
      (initLin_OutInvariant cx rules) hrun
    simp only [Option.some.injEq, Prod.mk.injEq] at h
    obtain ⟨hout2, hd⟩ := h
    cases dd with
    | true =>
      have hout3 : out = (List.range rules.length).filterMap
          (fun m => if st.valid m = true then some (st.acc m) else none) := by
        rw [← hout2]
        simp
      refine ⟨st.acc i, ?_, hQ.1 i⟩
      rw [hout3]
      refine List.mem_filterMap.mpr ⟨i, List.mem_range.mpr hi, ?_⟩
      rw [(hQ.2 i hi ho).2]
      rfl
    | false =>
      have hout3 : out = rules := by
        rw [← hout2]
        simp
      match hget : rules.get? i with
      | none =>
        rw [List.get?_eq_none] at hget
        omega
      | some r2 =>
        refine ⟨r2, ?_, ?_⟩
        · rw [hout3]
          exact List.get?_mem hget
        · unfold origHead
          rw [hget]
          rfl

/-- Witness for `C1_linear_keeps_output_rules` on the concrete input
`{Out :- P, P :- ⊤}`: the linear stage rewrites the output rule to
`Out :- ⊤` but keeps an output-headed rule in its output. -/
theorem C1_linear_keeps_output_rules_witness :
    ∃ r2 ∈ [(⟨atm pOut, [], [], []⟩ : Rule)],
      r2.head.pred = origHead [ruleOutP, ruleP] 0 :=
  C1_linear_keeps_output_rules { baseCtx with outputPreds := [pOut] }
    [ruleOutP, ruleP] 4 [⟨atm pOut, [], [], []⟩] true
    (fun r r2 h => by cases h; rfl) (fun r => rfl)
    (by decide) 0 (by decide) (by decide)

/-- `mk_rule_inliner::forbid_preds_from_cycles`: insert the first
predicate of every non-singleton stratum into the forbidden set; return
whether anything was inserted. -/
def forbidPredsFromCycles (comps : List (List Pred)) (forb : List Pred) :
    List Pred × Bool :=
  comps.foldl (fun fb stratum =>
    match stratum with
    | [] => fb
    | [_] => fb
    | p :: _ :: _ => (insertPred fb.1 p, true)) (forb, false)

/-- `mk_rule_inliner::create_allowed_rule_set`. -/
def createAllowedRuleSet (cx : Ctx) (st : PlanState) (orig : List Rule) :
    List Rule :=
  orig.filter (fun r => inliningAllowed cx st r.head.pred)

/-- The cycle-breaking loop of `plan_inlining` (fueled): rebuild the
candidate set and forbid one predicate per non-trivial SCC until the
candidate set is acyclic. -/
def cycleBreakLoop (cx : Ctx) (orig : List Rule) :
    Nat → PlanState → Option (PlanState × List Rule)
  | 0, _ => none
  | fuel + 1, st =>
    let candidate := createAllowedRuleSet cx st orig
    let fb := forbidPredsFromCycles (cx.sccOf candidate) st.forbidden
    if fb.2 then cycleBreakLoop cx orig fuel { st with forbidden := fb.1 }
    else some (st, candidate)

/-- Building `m_inlined_rules` from the candidate rules in stratum
order: each candidate rule is transformed against the rules accumulated
so far.  (In the source the set being filled is also the lookup set of
the in-flight worklist; for the acyclic plans produced by the cycle
breaker a rule's own stratum predicates are never looked up during its
transformation, so fixing the lookup set per rule is equivalent.) -/
def buildInlinedLoop (cx : Ctx) (st : PlanState) (fuel : Nat) :
    List Rule → List Rule → Option (List Rule)
  | [], acc => some acc
  | r :: rest, acc =>
    match transformRuleLoop cx st
        (fun p => acc.filter (fun r2 => decide (r2.head.pred = p))) fuel [r]
        (acc, false, []) with
    | none => none
    | some out => buildInlinedLoop cx st fuel rest out.1

/-- `mk_rule_inliner::plan_inlining`: count occurrences, break cycles,
run the multiplier guard (rebuilding the candidate set if it forbade
something), then fill the inlined-rules set bottom-up in stratum
order. -/
def planInlining (cx : Ctx) (fuel : Nat) (source : List Rule) :
    Option (PlanState × List Rule) :=
  match cycleBreakLoop cx source fuel (countState source []) with
  | none => none
  | some (st1, cand1) =>
    let fmmRes := forbidMultipleMultipliers cx source (cx.sccOf cand1)
      (fun p => cand1.filter (fun r => decide (r.head.pred = p))) st1
    let st2 := fmmRes.1
    let cand2 := if fmmRes.2 then createAllowedRuleSet cx st2 source else cand1
    let ordered := (cx.sccOf cand2).flatMap (fun stratum =>
      match stratum with
      | [] => []
      | p :: _ => cand2.filter (fun r => decide (r.head.pred = p)))
    match buildInlinedLoop cx st2 fuel ordered [] with
    | none => none
    | some inlRules => some (st2, inlRules)

/-- `mk_rule_inliner::operator()`: the top-level pass.  Returns, on
sufficient fuel, the optional output rule set (`none` = the null "no
change" result), whether the model converter was composed, whether the
proof converter was composed, and — as observable instrumentation —
the `something_done` flag.  An empty source returns the null result
immediately; otherwise the bulk, eager and (configuration permitting)
linear stages run, and the null result is produced exactly when none
of them did anything, in which case the host's converters are left
uncomposed. -/
def run (cx : Ctx) (fuel : Nat) (source : List Rule)
    (mcPresent pcPresent : Bool) :
    Option (Option (List Rule) × Bool × Bool × Bool) :=
  if source.length = 0 then some (none, false, false, false)
  else
    match planInlining cx fuel source with
    | none => none
    | some (st, inlRules) =>
      match transformRulesLoop cx st
          (fun p => inlRules.filter (fun r => decide (r.head.pred = p)))
          fuel source ([], false, []) with
      | none => none
      | some (bulk, done1, _) =>
        match eagerPass cx (cx.stratOf bulk) fuel bulk with
        | none => none
        | some (afterEager, done2) =>
          match (if cx.inlineLinearFlag then inlineLinear cx fuel afterEager
                 else some (afterEager, false)) with
          | none => none
          | some (afterLin, done3) =>
            if done1 || done2 || done3 then
              some (some afterLin, mcPresent, pcPresent, true)
            else
              some (none, false, false, false)

/-- C8: the top-level run returns the null rule set exactly when the
pass made no change — the source rule set is empty, or none of the
bulk, eager and linear stages modified anything (the `something_done`
flag is false) — and exactly in that case the host's model and proof
converters are left uncomposed; when a change was made, each present
converter is composed. -/
theorem C8_run_no_change (cx : Ctx) (fuel : Nat) (source : List Rule)
    (mcPresent pcPresent : Bool) (rulesOpt : Option (List Rule))
    (mcC pcC sd : Bool)
    (h : run cx fuel source mcPresent pcPresent =
      some (rulesOpt, mcC, pcC, sd)) :
    (rulesOpt = none ↔ (source = [] ∨ sd = false)) ∧
    (mcC = true ↔ (rulesOpt ≠ none ∧ mcPresent = true)) ∧
    (pcC = true ↔ (rulesOpt ≠ none ∧ pcPresent = true)) := by
  unfold run at h
  by_cases hsrc : source.length = 0
  · rw [if_pos hsrc] at h
    have hempty : source = [] := List.length_eq_zero.mp hsrc
    have h1 := Option.some_injective _ h
    simp only [Prod.mk.injEq] at h1
    obtain ⟨e1, e2, e3, e4⟩ := h1
    subst e1; subst e2; subst e3; subst e4
    subst hempty
    refine ⟨by simp, by simp, by simp⟩
  · rw [if_neg hsrc] at h
    have hne : source ≠ [] := fun hc => hsrc (by rw [hc]; rfl)
    match hplan : planInlining cx fuel source with
    | none =>
      simp only [hplan] at h
      exact Option.noConfusion h
    | some stinl =>
      obtain ⟨st, inlRules⟩ := stinl
      simp only [hplan] at h
      match htr : transformRulesLoop cx st
          (fun p => inlRules.filter (fun r => decide (r.head.pred = p)))
          fuel source ([], false, []) with
      | none =>
        simp only [htr] at h
        exact Option.noConfusion h
      | some bulkOut =>
        obtain ⟨bulk, done1, srcs⟩ := bulkOut
        simp only [htr] at h
        match he : eagerPass cx (cx.stratOf bulk) fuel bulk with
        | none =>
          simp only [he] at h
          exact Option.noConfusion h
        | some ae =>
          obtain ⟨afterEager, done2⟩ := ae
          simp only [he] at h
          match hl : (if cx.inlineLinearFlag then
              inlineLinear cx fuel afterEager
            else some (afterEager, false)) with
          | none =>
            simp only [hl] at h
            exact Option.noConfusion h
          | some al =>
            obtain ⟨afterLin, done3⟩ := al
            simp only [hl] at h
            by_cases hsd : (done1 || done2 || done3) = true
            · rw [if_pos hsd] at h
              have h1 := Option.some_injective _ h
              simp only [Prod.mk.injEq] at h1
              obtain ⟨e1, e2, e3, e4⟩ := h1
              subst e1; subst e2; subst e3; subst e4
              refine ⟨by simp [hne], by simp, by simp⟩
            · rw [if_neg hsd] at h
              have h1 := Option.some_injective _ h
              simp only [Prod.mk.injEq] at h1
              obtain ⟨e1, e2, e3, e4⟩ := h1
              subst e1; subst e2; subst e3; subst e4
              refine ⟨by simp, by simp, by simp⟩

/-- Witness for `C8_run_no_change`: on `{Out :- P, P :- ⊤}` with `Out`
declared output, the pass inlines `P` (the bulk stage modifies), so a
non-null rule set is returned and both present converters are
composed. -/
theorem C8_run_no_change_witness :
    ((some [(⟨atm pOut, [], [], []⟩ : Rule)] : Option (List Rule)) = none ↔
      ([ruleOutP, ruleP] = ([] : List Rule) ∨ true = false)) ∧
    (true = true ↔
      ((some [(⟨atm pOut, [], [], []⟩ : Rule)] : Option (List Rule)) ≠ none ∧
       true = true)) :=
  have hc := C8_run_no_change { baseCtx with outputPreds := [pOut] } 6
    [ruleOutP, ruleP] true true (some [⟨atm pOut, [], [], []⟩]) true true true
    (by decide)
  ⟨hc.1, hc.2.1⟩

/-- `del_rule`'s effect on the head index positions. -/
theorem delRuleL_headPos (r : Rule) (i : Nat) (st : LinState) :
    (delRuleL r i st).headPos = st.headPos.erase (r.head, i) := rfl

/-- `del_rule`'s effect on the tail index positions. -/
theorem delRuleL_tailPos (r : Rule) (i : Nat) (st : LinState) :
    (delRuleL r i st).tailPos =
      (r.ptail ++ r.ntail).foldl (fun tp a => tp.erase (a, i)) st.tailPos :=
  rfl

/-- `del_rule` does not touch the `can_expand` flags. -/
theorem delRuleL_canExpand (r : Rule) (i : Nat) (st : LinState) :
    (delRuleL r i st).canExpand = st.canExpand := rfl

/-- The `can_expand` flags after `add_rule`. -/
theorem addRuleL_canExpand (cx : Ctx) (r : Rule) (i : Nat) (st : LinState) :
    (addRuleL cx r i st).canExpand =
      updN st.canExpand i
        (match r.ptail, r.ntail with
         | [a], [] =>
           !(decide (a.pred ∈ cx.predsWithFacts)) &&
           !(decide (a.pred ∈ cx.outputPreds))
         | _, _ => false) := by
  unfold addRuleL
  split <;> rfl

/-- Characterization of one successful linear-inliner iteration that
does not invalidate the callee (`k ≠ 1`, branching allowed): the
resulting state keeps the `valid` flags, keeps `can_remove` when the
resolvent head is neither output nor facts-backed, replaces the rule at
`i` and inherits `can_expand[i]` from `j`, and updates the two index
position lists by removing the old rule's entries and appending the
resolvent's. -/
theorem linIter_noinval_step (cx : Ctx) (i : Nat) (st : LinState)
    (t0 : Atom) (ts : List Atom) (j : Nat) (res : Rule)
    (hv : st.valid i = true) (hce : st.canExpand i = true)
    (ht0 : (st.acc i).ptail = t0 :: ts)
    (hhu : headUnifiers cx st t0 = [j])
    (hcr : st.canRemove j = true) (hvj : st.valid j = true) (hij : i ≠ j)
    (hbr2 : cx.inlineLinearBranch = true)
    (hk : (tailUnifiers cx st (st.acc j).head).length ≠ 1)
    (htr : tryToInline cx (st.acc i) 0 (st.acc j) = some res)
    (hres : ¬(res.head.pred ∈ cx.outputPreds ∨
      res.head.pred ∈ cx.predsWithFacts)) :
    ∃ s2, linIter cx i st = some s2 ∧
      s2.valid = st.valid ∧
      s2.canRemove = st.canRemove ∧
      (∀ m, s2.canExpand m =
        if m = i then st.canExpand j else st.canExpand m) ∧
      (∀ m, s2.acc m = if m = i then res else st.acc m) ∧
      s2.headPos = (st.headPos.erase ((st.acc i).head, i)) ++ [(res.head, i)] ∧
      s2.tailPos =
        (((st.acc i).ptail ++ (st.acc i).ntail).foldl
          (fun tp a => tp.erase (a, i)) st.tailPos) ++
        ((res.ptail ++ res.ntail).map (fun a => (a, i))) := by
  have hbr : ¬(cx.inlineLinearBranch = false ∧
      (tailUnifiers cx st (st.acc j).head).length ≠ 1) := by
    intro hc
    rw [hbr2] at hc
    exact Bool.noConfusion hc.1
  have hrun : linIter cx i st = some (
      let st1 := delRuleL (st.acc i) i st
      let st2 := addRuleL cx res i st1
      let st3 := { st2 with
        acc := updN st2.acc i res,
        canExpand := updN st2.canExpand i (st2.canExpand j) }
      if (tailUnifiers cx st (st.acc j).head).length = 1 then
        delRuleL (st.acc j) j { st3 with valid := updN st3.valid j false }
      else st3) := by
    unfold linIter
    simp only [hv, hce, ht0, hhu, hcr, hvj, htr]
    simp [hij, hbr]
  rw [hrun, if_neg hk]
  refine ⟨_, rfl, ?_, ?_, ?_, ?_, ?_, ?_⟩
  · simp only [addRuleL_valid, delRuleL_valid]
  · simp only [addRuleL_canRemove, if_neg hres, delRuleL_canRemove]
  · intro m
    simp only [addRuleL_canExpand, delRuleL_canExpand]
    by_cases hm : m = i
    · subst hm
      rw [updN_same]
      rw [updN_other _ _ _ _ (fun hc => hij hc.symm)]
      simp
    · rw [updN_other _ _ _ _ hm, updN_other _ _ _ _ hm]
      rw [if_neg hm]
  · intro m
    simp only [addRuleL_acc, delRuleL_acc]
    by_cases hm : m = i
    · subst hm
      rw [updN_same]
      simp
    · rw [updN_other _ _ _ _ hm]
      rw [if_neg hm]
  · simp only [addRuleL_headPos, delRuleL_headPos]
  · simp only [addRuleL_tailPos, delRuleL_tailPos]

/-- Predicate `C` of the linear-inliner cycle. -/
def pC : Pred := ⟨12, 0⟩

/-- The rule `A :- B`. -/
def rAB : Rule := ⟨atm pA, [atm pB], [], []⟩

/-- The rule `A :- C`. -/
def rAC : Rule := ⟨atm pA, [atm pC], [], []⟩

/-- The rule `B :- C`. -/
def rBC : Rule := ⟨atm pB, [atm pC], [], []⟩

/-- The rule `C :- B`. -/
def rCB : Rule := ⟨atm pC, [atm pB], [], []⟩

/-- The cyclic input of the C7 counterexample. -/
def rulesCyc : List Rule := [rAB, rBC, rCB]

/-- The context of the C7 counterexample: ground unification and the
`inline-linear-branch` flag enabled. -/
def cxBranch : Ctx := { baseCtx with inlineLinearBranch := true }

/-- First recurring shape of the linear driver's state on `rulesCyc`:
position 0 holds `A :- C`. -/
def cycA (s : LinState) : Prop :=
  s.valid 0 = true ∧ s.valid 1 = true ∧ s.valid 2 = true ∧
  s.canExpand 0 = true ∧ s.canExpand 1 = true ∧ s.canExpand 2 = true ∧
  s.canRemove 1 = true ∧ s.canRemove 2 = true ∧
  s.acc 0 = rAC ∧ s.acc 1 = rBC ∧ s.acc 2 = rCB ∧
  s.headPos = [(atm pB, 1), (atm pC, 2), (atm pA, 0)] ∧
  s.tailPos = [(atm pC, 1), (atm pB, 2), (atm pC, 0)]

/-- Second recurring shape of the linear driver's state on `rulesCyc`:
position 0 holds `A :- B`. -/
def cycB (s : LinState) : Prop :=
  s.valid 0 = true ∧ s.valid 1 = true ∧ s.valid 2 = true ∧
  s.canExpand 0 = true ∧ s.canExpand 1 = true ∧ s.canExpand 2 = true ∧
  s.canRemove 1 = true ∧ s.canRemove 2 = true ∧
  s.acc 0 = rAB ∧ s.acc 1 = rBC ∧ s.acc 2 = rCB ∧
  s.headPos = [(atm pB, 1), (atm pC, 2), (atm pA, 0)] ∧
  s.tailPos = [(atm pC, 1), (atm pB, 2), (atm pB, 0)]

/-- A `cycA` state steps to a `cycB` state. -/
theorem cycA_step (s : LinState) (hA : cycA s) :
    ∃ s2, linIter cxBranch 0 s = some s2 ∧ cycB s2 := by
  obtain ⟨hv0, hv1, hv2, he0, he1, he2, hr1, hr2, ha0, ha1, ha2, hhp, htp⟩ :=
    hA
  have ht0 : (s.acc 0).ptail = atm pC :: [] := by rw [ha0]; rfl
  have hhu : headUnifiers cxBranch s (atm pC) = [2] := by
    unfold headUnifiers
    rw [hhp]
    rfl
  have hk : (tailUnifiers cxBranch s (s.acc 2).head).length ≠ 1 := by
    unfold tailUnifiers
    rw [htp, ha2]
    decide
  have htr : tryToInline cxBranch (s.acc 0) 0 (s.acc 2) = some rAB := by
    rw [ha0, ha2]
    decide
  obtain ⟨s2, hstep, hval, hcrm, hcex, hacc, hhp2, htp2⟩ :=
    linIter_noinval_step cxBranch 0 s (atm pC) [] 2 rAB hv0 he0 ht0 hhu hr2
      hv2 (by decide) (by decide) hk htr (by decide)
  refine ⟨s2, hstep, ?_, ?_, ?_, ?_, ?_, ?_, ?_, ?_, ?_, ?_, ?_, ?_, ?_⟩
  · rw [hval]; exact hv0
  · rw [hval]; exact hv1
  · rw [hval]; exact hv2
  · rw [hcex 0]; simp; exact he2
  · rw [hcex 1]; simp; exact he1
  · rw [hcex 2]; simp; exact he2
  · rw [hcrm]; exact hr1
  · rw [hcrm]; exact hr2
  · rw [hacc 0]; rfl
  · rw [hacc 1]; simp; exact ha1
  · rw [hacc 2]; simp; exact ha2
  · rw [hhp2, hhp, ha0]; decide
  · rw [htp2, htp, ha0]; decide

/-- A `cycB` state steps back to a `cycA` state. -/
theorem cycB_step (s : LinState) (hB : cycB s) :
    ∃ s2, linIter cxBranch 0 s = some s2 ∧ cycA s2 := by
  obtain ⟨hv0, hv1, hv2, he0, he1, he2, hr1, hr2, ha0, ha1, ha2, hhp, htp⟩ :=
    hB
  have ht0 : (s.acc 0).ptail = atm pB :: [] := by rw [ha0]; rfl
  have hhu : headUnifiers cxBranch s (atm pB) = [1] := by
    unfold headUnifiers
    rw [hhp]
    rfl
  have hk : (tailUnifiers cxBranch s (s.acc 1).head).length ≠ 1 := by
    unfold tailUnifiers
    rw [htp, ha1]
    decide
  have htr : tryToInline cxBranch (s.acc 0) 0 (s.acc 1) = some rAC := by
    rw [ha0, ha1]
    decide
  obtain ⟨s2, hstep, hval, hcrm, hcex, hacc, hhp2, htp2⟩ :=
    linIter_noinval_step cxBranch 0 s (atm pB) [] 1 rAC hv0 he0 ht0 hhu hr1
      hv1 (by decide) (by decide) hk htr (by decide)
  refine ⟨s2, hstep, ?_, ?_, ?_, ?_, ?_, ?_, ?_, ?_, ?_, ?_, ?_, ?_, ?_⟩
  · rw [hval]; exact hv0
  · rw [hval]; exact hv1
  · rw [hval]; exact hv2
  · rw [hcex 0]; simp; exact he1
  · rw [hcex 1]; simp; exact he1
  · rw [hcex 2]; simp; exact he2
  · rw [hcrm]; exact hr1
  · rw [hcrm]; exact hr2
  · rw [hacc 0]; rfl
  · rw [hacc 1]; simp; exact ha1
  · rw [hacc 2]; simp; exact ha2
  · rw [hhp2, hhp, ha0]; decide
  · rw [htp2, htp, ha0]; decide

/-- A state caught in the two-state cycle exhausts any amount of fuel in
the linear driver's inner loop. -/
theorem linLoop_cycle_none :
    ∀ (fuel : Nat),
      (∀ (s : LinState) (d : Bool), cycA s →
        linLoop cxBranch fuel 0 s d = none) ∧
      (∀ (s : LinState) (d : Bool), cycB s →
        linLoop cxBranch fuel 0 s d = none)
  | 0 => ⟨fun _ _ _ => rfl, fun _ _ _ => rfl⟩
  | fuel + 1 => by
    refine ⟨?_, ?_⟩
    · intro s d hA
      obtain ⟨s2, hstep, hB⟩ := cycA_step s hA
      rw [linLoop, hstep]
      exact (linLoop_cycle_none fuel).2 s2 true hB
    · intro s d hB
      obtain ⟨s2, hstep, hA⟩ := cycB_step s hB
      rw [linLoop, hstep]
      exact (linLoop_cycle_none fuel).1 s2 true hA

/-- The state of the linear driver on `rulesCyc` after its first inline
step. -/
def sCycFirst : LinState :=
  (linIter cxBranch 0 (initLin cxBranch rulesCyc)).getD
    (initLin cxBranch rulesCyc)

/-- Divergence of the linear stage on the cyclic input: no amount of
fuel lets the fueled embedding of `inline_linear` complete on
`rulesCyc` under the branching configuration — the source's unfueled
`while (true)` loop runs forever there. -/
def linearStageDiverges : Prop :=
  ∀ fuel : Nat, inlineLinear cxBranch fuel rulesCyc = none

/-- C7 counterexample: on the input `{A :- B, B :- C, C :- B}` with the
`inline-linear-branch` configuration enabled, the linear inliner's
inner loop at position 0 alternates forever between `A :- B` and
`A :- C` (the callee is never invalidated because its head has two tail
unifiers), so the fueled embedding of `inline_linear` fails for every
fuel: the pass does not terminate on this input, refuting "for every
input rule set, the pass terminates". -/
theorem C7_counterexample :
    linIter cxBranch 0 (initLin cxBranch rulesCyc) = some sCycFirst ∧
    cycA sCycFirst ∧
    linearStageDiverges := by
  have hfirst : linIter cxBranch 0 (initLin cxBranch rulesCyc) =
      some sCycFirst := by
    rfl
  have hA : cycA sCycFirst := by
    refine ⟨?_, ?_, ?_, ?_, ?_, ?_, ?_, ?_, ?_, ?_, ?_, ?_, ?_⟩ <;> decide
  refine ⟨hfirst, hA, ?_⟩
  intro fuel
  unfold inlineLinear
  have houter : linOuter cxBranch fuel (List.range rulesCyc.length)
      (initLin cxBranch rulesCyc) false = none := by
    have hrange : List.range rulesCyc.length = [0, 1, 2] := rfl
    rw [hrange, linOuter]
    have hloop : linLoop cxBranch fuel 0 (initLin cxBranch rulesCyc) false =
        none := by
      cases fuel with
      | zero => rfl
      | succ f =>
        rw [linLoop, hfirst]
        exact (linLoop_cycle_none f).1 sCycFirst true hA
    rw [hloop]
  rw [houter]

end RuleInliner
